import Mathlib

/-!
Verification development for the tgfx 2D drawing engine core.

This file gives a shallow embedding, in Lean 4, of the parts of the tgfx
source that the specification talks about:

* the clip resolver of `src/core/Canvas.cpp` (`getClipRect` / `getClipMask` /
  `drawAsClear`), over rectangles with rational coordinates;
* the drawing-state machine of `Canvas.cpp` (`save` / `restore` / matrix,
  alpha and blend-mode setters / `clipRect` / `clipPath` / `clear`) together
  with the process-wide clip-identity counter `NextClipID`;
* the GPU resource cache of `src/gpu/ResourceCache.cpp`;
* the compiled-program cache of `src/gpu/ProgramCache.cpp`.

Modelling conventions:

* `float` scalars are embedded as rationals (`ℚ`); the constant `1e-3f`
  (`BOUNDS_TO_LERANCE`) is embedded as `1/1000`.
* Geometric primitives (`Rect`, `Matrix`, `Path`) are pure value types that
  the specification treats as external collaborators.  `Rect` and `Matrix`
  are embedded concretely with their standard (Skia-style) semantics.
  `Path` is embedded as a free term algebra over the constructors the canvas
  actually applies (`addRect`, `addPath` with `PathOp::Intersect`,
  `transform`), so equality of embedded paths is construction equality:
  equal terms denote bit-identical C++ paths.  The two path queries the
  canvas makes (`Path::contains`, `Path::asRect`) are passed to the embedded
  clip resolver as explicit arguments, since their implementation lives in
  the external path library.
* The 32-bit atomic counter in `NextClipID` is embedded by the total number
  of allocations made, with the issued identifier computed modulo the
  counter's period (the counter skips the reserved value 0 on wrap-around).
-/

namespace Tgfx

/-- `tgfx::Rect`: left/top/right/bottom, embedded over `ℚ`. -/
structure RectQ where
  left : ℚ
  top : ℚ
  right : ℚ
  bottom : ℚ
deriving DecidableEq, Repr

namespace RectQ

/-- `Rect::MakeWH(w, h)`. -/
def makeWH (w h : ℚ) : RectQ := ⟨0, 0, w, h⟩

/-- `Rect::MakeEmpty()`: all four coordinates zero. -/
def makeEmpty : RectQ := ⟨0, 0, 0, 0⟩

/-- `Rect::width()`. -/
def width (r : RectQ) : ℚ := r.right - r.left

/-- `Rect::height()`. -/
def height (r : RectQ) : ℚ := r.bottom - r.top

/-- `Rect::isEmpty()`: true when the rect does not enclose any area. -/
def IsEmpty (r : RectQ) : Prop := r.right ≤ r.left ∨ r.bottom ≤ r.top

instance (r : RectQ) : Decidable r.IsEmpty := by unfold IsEmpty; exact inferInstance

/-- C `roundf`: round to the nearest integer, halfway cases away from zero. -/
def roundScalar (x : ℚ) : ℚ :=
  if x < 0 then -((⌊-x + 1/2⌋ : ℤ) : ℚ) else ((⌊x + 1/2⌋ : ℤ) : ℚ)

/-- `Rect::round()`: round every coordinate to the nearest integer. -/
def round (r : RectQ) : RectQ :=
  ⟨roundScalar r.left, roundScalar r.top, roundScalar r.right, roundScalar r.bottom⟩

/-- `a` is contained in `b` (area inclusion between rects). -/
def SubsetOf (a b : RectQ) : Prop :=
  b.left ≤ a.left ∧ b.top ≤ a.top ∧ a.right ≤ b.right ∧ a.bottom ≤ b.bottom

instance (a b : RectQ) : Decidable (a.SubsetOf b) := by unfold SubsetOf; exact inferInstance

/-- `Rect::intersect(other)`: replace the rect by the intersection when the two
rects overlap, and leave it unchanged otherwise (the C++ method returns `false`
in that case and keeps the receiver as it was; `Canvas::drawAsClear` ignores
the returned flag). -/
def intersect (a b : RectQ) : RectQ :=
  let l := max a.left b.left
  let t := max a.top b.top
  let r := min a.right b.right
  let bo := min a.bottom b.bottom
  if l < r ∧ t < bo then ⟨l, t, r, bo⟩ else a

end RectQ

/-- `tgfx::ImageOrigin`. -/
inductive ImageOrigin
  | TopLeft
  | BottomLeft
deriving DecidableEq, Repr

/-- The surface attributes that `Canvas`'s clip logic reads: pixel dimensions
and the origin convention. -/
structure SurfaceM where
  width : ℕ
  height : ℕ
  origin : ImageOrigin
deriving DecidableEq, Repr

/-- `BOUNDS_TO_LERANCE = 1e-3f` from `Canvas.cpp`, embedded as `1/1000`. -/
def boundsTolerance : ℚ := 1/1000

/-- `IsPixelAligned(rect)` from `Canvas.cpp`: every coordinate is within the
tolerance of its nearest integer. -/
def IsPixelAligned (r : RectQ) : Prop :=
  |RectQ.roundScalar r.left - r.left| ≤ boundsTolerance ∧
  |RectQ.roundScalar r.top - r.top| ≤ boundsTolerance ∧
  |RectQ.roundScalar r.right - r.right| ≤ boundsTolerance ∧
  |RectQ.roundScalar r.bottom - r.bottom| ≤ boundsTolerance

instance (r : RectQ) : Decidable (IsPixelAligned r) := by
  unfold IsPixelAligned; exact inferInstance

/-- `FlipYIfNeeded(rect, surface)` from `Canvas.cpp`: on a bottom-left-origin
surface, mirror the rect vertically inside the surface height. -/
def FlipYIfNeeded (r : RectQ) (surface : SurfaceM) : RectQ :=
  match surface.origin with
  | .TopLeft => r
  | .BottomLeft =>
    let h := r.height
    let newTop := (surface.height : ℚ) - r.bottom
    ⟨r.left, newTop, r.right, newTop + h⟩

/-- `Canvas::getClipRect()` from `Canvas.cpp`.  The current clip path's
`Path::asRect` result is passed in as `clipAsRect` (the path type is an
external collaborator).  Returns the optional rect together with the
`useScissor` flag, exactly mirroring the C++ control flow. -/
def getClipRect (clipAsRect : Option RectQ) (surface : SurfaceM) : Option RectQ × Bool :=
  match clipAsRect with
  | some r0 =>
    let r1 := FlipYIfNeeded r0 surface
    if IsPixelAligned r1 then
      let r2 := r1.round
      if r2 ≠ RectQ.makeWH surface.width surface.height then
        (some r2, true)
      else
        (some RectQ.makeEmpty, false)
    else
      (some r1, false)
  | none => (none, false)

/-- The observable outcome of `Canvas::getClipMask`:

* `noClip`: the call returns a null fragment processor and leaves the scissor
  rect empty;
* `scissor r`: the call returns a null fragment processor after storing `r`
  into `*scissorRect`;
* `aaRect r`: the call returns `AARectEffect::Make(r)` (analytic coverage);
* `maskTexture`: the call returns the `DeviceSpaceTextureEffect` sampling the
  rasterized clip texture. -/
inductive ClipMaskResult
  | noClip
  | scissor (rect : RectQ)
  | aaRect (rect : RectQ)
  | maskTexture
deriving DecidableEq, Repr

/-- `Canvas::getClipMask(deviceBounds, scissorRect)` from `Canvas.cpp`.
`clipContainsDeviceBounds` is the result of the external call
`state->clip.contains(deviceBounds)`, and `clipAsRect` the result of
`state->clip.asRect(...)` inside `getClipRect`. -/
def getClipMask (clipContainsDeviceBounds : Bool) (clipAsRect : Option RectQ)
    (surface : SurfaceM) : ClipMaskResult :=
  if clipContainsDeviceBounds then
    .noClip
  else
    match getClipRect clipAsRect surface with
    | (some r, useScissor) =>
      if useScissor then
        .scissor r
      else if ¬r.IsEmpty then
        .aaRect r
      else
        .noClip
    | (none, _) => .maskTexture

/-- `tgfx::Matrix`: a 2×3 affine matrix (the geometric value type the canvas
stores; an external collaborator embedded with its standard semantics).
A point `(x, y)` maps to
`(scaleX*x + skewX*y + transX, skewY*x + scaleY*y + transY)`. -/
structure MatrixM where
  scaleX : ℚ
  skewX : ℚ
  transX : ℚ
  skewY : ℚ
  scaleY : ℚ
  transY : ℚ
deriving DecidableEq, Repr

namespace MatrixM

/-- `Matrix::I()`. -/
def identity : MatrixM := ⟨1, 0, 0, 0, 1, 0⟩

/-- `Matrix::preConcat(other)`: the matrix product `this * other`, so that the
result applies `other` first and `this` second. -/
def preConcat (a b : MatrixM) : MatrixM :=
  { scaleX := a.scaleX * b.scaleX + a.skewX * b.skewY
    skewX := a.scaleX * b.skewX + a.skewX * b.scaleY
    transX := a.scaleX * b.transX + a.skewX * b.transY + a.transX
    skewY := a.skewY * b.scaleX + a.scaleY * b.skewY
    scaleY := a.skewY * b.skewX + a.scaleY * b.scaleY
    transY := a.skewY * b.transX + a.scaleY * b.transY + a.transY }

/-- `Matrix::rectStaysRect()`: the matrix maps every rect to a rect, i.e. it
is a non-degenerate scale (possibly with translation) or a non-degenerate
90-degree rotation composed with a scale. -/
def RectStaysRect (m : MatrixM) : Prop :=
  (m.scaleX ≠ 0 ∧ m.scaleY ≠ 0 ∧ m.skewX = 0 ∧ m.skewY = 0) ∨
  (m.scaleX = 0 ∧ m.scaleY = 0 ∧ m.skewX ≠ 0 ∧ m.skewY ≠ 0)

instance (m : MatrixM) : Decidable m.RectStaysRect := by
  unfold RectStaysRect; exact inferInstance

/-- Map a point through the affine matrix. -/
def mapX (m : MatrixM) (x y : ℚ) : ℚ := m.scaleX * x + m.skewX * y + m.transX

/-- Map a point through the affine matrix. -/
def mapY (m : MatrixM) (x y : ℚ) : ℚ := m.skewY * x + m.scaleY * y + m.transY

/-- `Matrix::mapRect`: the bounding box of the images of the rect's four
corners (the matrix has no perspective part). -/
def mapRect (m : MatrixM) (r : RectQ) : RectQ :=
  let x1 := m.mapX r.left r.top
  let x2 := m.mapX r.right r.top
  let x3 := m.mapX r.left r.bottom
  let x4 := m.mapX r.right r.bottom
  let y1 := m.mapY r.left r.top
  let y2 := m.mapY r.right r.top
  let y3 := m.mapY r.left r.bottom
  let y4 := m.mapY r.right r.bottom
  ⟨min (min x1 x2) (min x3 x4), min (min y1 y2) (min y3 y4),
   max (max x1 x2) (max x3 x4), max (max y1 y2) (max y3 y4)⟩

end MatrixM

/-- `tgfx::BlendMode` (declared in the library's public headers; only the
distinctness of the enumeration members matters to the embedded logic). -/
inductive BlendMode
  | Clear
  | Src
  | Dst
  | SrcOver
  | DstOver
  | SrcIn
  | DstIn
  | SrcOut
  | DstOut
  | SrcATop
  | DstATop
  | Xor
  | Plus
  | Modulate
  | Screen
  | Multiply
deriving DecidableEq, Repr

/-- `tgfx::Color`: RGBA with rational components. -/
structure ColorQ where
  red : ℚ
  green : ℚ
  blue : ℚ
  alpha : ℚ
deriving DecidableEq, Repr

namespace ColorQ

/-- `Color::Transparent()`. -/
def transparent : ColorQ := ⟨0, 0, 0, 0⟩

/-- `Color::isOpaque()`: the alpha component is at least one. -/
def IsOpaque (c : ColorQ) : Prop := 1 ≤ c.alpha

instance (c : ColorQ) : Decidable c.IsOpaque := by unfold IsOpaque; exact inferInstance

end ColorQ

/-- `tgfx::Path`, embedded as the free term algebra over the constructions the
canvas applies to its clip.  Equality of terms is construction equality: two
equal terms denote C++ paths built by the same operations on the same values,
hence bit-identical path objects. -/
inductive PathM
  | empty
  | addRect (rect : RectQ) (base : PathM)
  | addPathIntersect (src : PathM) (base : PathM)
  | transformed (matrix : MatrixM) (base : PathM)
deriving DecidableEq, Repr

/-- `CanvasState` (declared in `CanvasState.h`; the field set and the defaults
are those `Canvas.cpp` reads and writes: a transform, a global alpha, a blend
mode, the accumulated clip and its identity tag). -/
structure CanvasState where
  alpha : ℚ := 1
  blendMode : BlendMode := .SrcOver
  matrix : MatrixM := MatrixM.identity
  clip : PathM := .empty
  clipID : ℕ := 0
deriving DecidableEq, Repr

/-- The period of the 32-bit clip-identity counter: `NextClipID` issues ids in
`1 .. 2^32 - 1`, skipping the reserved id `0` when the `uint32_t` wraps
around. -/
def clipIDPeriod : ℕ := 2 ^ 32 - 1

/-- `NextClipID()` from `Canvas.cpp`: given the total number of allocations
made so far by the process-wide atomic counter, return the issued identifier
together with the new allocation count.  The k-th allocation (counting from
zero) yields `k % (2^32 - 1) + 1`, which is exactly the value sequence of the
C++ `do { id = nextID++; } while (id < kFirstUnreservedClipID)` loop on a
wrapping `uint32_t` starting at 1. -/
def NextClipID (allocCount : ℕ) : ℕ × ℕ :=
  (allocCount % clipIDPeriod + 1, allocCount + 1)

/-- A GPU operation forwarded to the canvas's draw context
(`drawContext->addOp(...)`).  Only the fact that an operation was emitted
matters to the state-machine claims, so the payload is not recorded. -/
inductive DrawEvent
  | drawCall
deriving DecidableEq, Repr

/-- The mutable part of a `tgfx::Canvas`: the surface it draws into, the
current `CanvasState`, the saved-state stack, and the log of operations
forwarded to its `SurfaceDrawContext`. -/
@[ext]
structure CanvasM where
  surface : SurfaceM
  state : CanvasState
  savedStateList : List CanvasState
  ops : List DrawEvent
deriving DecidableEq, Repr

namespace CanvasM

/-- The `Canvas` constructor: a fresh state whose clip is the full-surface
rect and whose clip identity comes from `NextClipID()`. -/
def make (surface : SurfaceM) (allocCount : ℕ) : CanvasM × ℕ :=
  let issued := NextClipID allocCount
  ({ surface := surface
     state := { clip := PathM.addRect ⟨0, 0, (surface.width : ℚ), (surface.height : ℚ)⟩ .empty
                clipID := issued.1 }
     savedStateList := []
     ops := [] }, issued.2)

/-- `Canvas::save()`: push a copy of the current state. -/
def save (c : CanvasM) : CanvasM :=
  { c with savedStateList := c.savedStateList ++ [c.state] }

/-- `Canvas::restore()`: pop the most recently saved state; a no-op when the
stack is empty. -/
def restore (c : CanvasM) : CanvasM :=
  match c.savedStateList.getLast? with
  | none => c
  | some s => { c with state := s, savedStateList := c.savedStateList.dropLast }

/-- `Canvas::setMatrix`. -/
def setMatrix (c : CanvasM) (m : MatrixM) : CanvasM :=
  { c with state := { c.state with matrix := m } }

/-- `Canvas::resetMatrix`. -/
def resetMatrix (c : CanvasM) : CanvasM :=
  { c with state := { c.state with matrix := MatrixM.identity } }

/-- `Canvas::concat`. -/
def concat (c : CanvasM) (m : MatrixM) : CanvasM :=
  { c with state := { c.state with matrix := c.state.matrix.preConcat m } }

/-- `Canvas::setAlpha`. -/
def setAlpha (c : CanvasM) (a : ℚ) : CanvasM :=
  { c with state := { c.state with alpha := a } }

/-- `Canvas::setBlendMode`. -/
def setBlendMode (c : CanvasM) (b : BlendMode) : CanvasM :=
  { c with state := { c.state with blendMode := b } }

/-- `Canvas::clipPath(path)`: transform the given path by the current matrix,
intersect it into the accumulated clip, and tag the state with a freshly
allocated clip identity.  Threads the process-wide allocation count. -/
def clipPath (c : CanvasM) (allocCount : ℕ) (path : PathM) : CanvasM × ℕ :=
  let transformedPath := PathM.transformed c.state.matrix path
  let issued := NextClipID allocCount
  ({ c with state := { c.state with
       clip := PathM.addPathIntersect transformedPath c.state.clip
       clipID := issued.1 } }, issued.2)

/-- `Canvas::clipRect(rect)`: builds a one-rect path and calls `clipPath`. -/
def clipRect (c : CanvasM) (allocCount : ℕ) (rect : RectQ) : CanvasM × ℕ :=
  clipPath c allocCount (PathM.addRect rect .empty)

/-- `Canvas::drawRect` (and the `drawPath`/`fillPath` pipeline under it) for a
rectangle path: reads the state and forwards at most one operation to the draw
context, leaving the drawing state and the saved-state stack untouched.  In
`Canvas.cpp`, for a path that is exactly a rectangle, `fillPath` takes either
the `drawAsClear` return, or the `MakeSimplePathOp` branch (`Path::asRect`
succeeds for a one-rect path, so `FillRectOp` is produced); the
state-mutating triangulation branch (`save`/`resetMatrix`/`restore`) and
`drawMask` are unreachable for it.  The emitted operation is recorded as one
`DrawEvent`. -/
def drawRect (c : CanvasM) : CanvasM :=
  { c with ops := c.ops ++ [DrawEvent.drawCall] }

/-- `Canvas::clear(color)`: remember the blend mode, switch to `Src`, fill
the full-surface rect, and put the old blend mode back. -/
def clear (c : CanvasM) : CanvasM :=
  let oldBlend := c.state.blendMode
  let c1 := c.setBlendMode .Src
  let c2 := c1.drawRect
  c2.setBlendMode oldBlend

end CanvasM

/-- The caller-visible canvas operations used by the state-machine claims. -/
inductive CanvasOp
  | save
  | restore
  | setMatrix (m : MatrixM)
  | resetMatrix
  | concat (m : MatrixM)
  | setAlpha (a : ℚ)
  | setBlendMode (b : BlendMode)
  | clipRect (r : RectQ)
  | clipPath (p : PathM)
  | clear
  | drawRect
deriving DecidableEq, Repr

/-- Apply one canvas operation, threading the process-wide clip-identity
allocation count. -/
def applyOp : CanvasM × ℕ → CanvasOp → CanvasM × ℕ
  | (c, n), .save => (c.save, n)
  | (c, n), .restore => (c.restore, n)
  | (c, n), .setMatrix m => (c.setMatrix m, n)
  | (c, n), .resetMatrix => (c.resetMatrix, n)
  | (c, n), .concat m => (c.concat m, n)
  | (c, n), .setAlpha a => (c.setAlpha a, n)
  | (c, n), .setBlendMode b => (c.setBlendMode b, n)
  | (c, n), .clipRect r => c.clipRect n r
  | (c, n), .clipPath p => c.clipPath n p
  | (c, n), .clear => (c.clear, n)
  | (c, n), .drawRect => (c.drawRect, n)

/-- Run a sequence of canvas operations. -/
def runOps (s : CanvasM × ℕ) (l : List CanvasOp) : CanvasM × ℕ :=
  l.foldl applyOp s

/-- The state mutations claim C4 allows between a `save` and its matching
`restore`. -/
def CanvasOp.IsStateMutation : CanvasOp → Prop := fun op =>
  match op with
  | .setMatrix _ => True
  | .setAlpha _ => True
  | .setBlendMode _ => True
  | .concat _ => True
  | .clipRect _ => True
  | .clipPath _ => True
  | _ => False

/-- Operation sequences allowed strictly inside a `save`/`restore` pair:
state mutations and nested balanced pairs, in any interleaving. -/
inductive Inner : List CanvasOp → Prop
  | nil : Inner []
  | mutStep {op : CanvasOp} {l : List CanvasOp} :
      op.IsStateMutation → Inner l → Inner (op :: l)
  | wrap {body rest : List CanvasOp} :
      Inner body → Inner rest → Inner (.save :: body ++ .restore :: rest)

/-- A sequence of balanced `save`/`restore` pairs, each enclosing an `Inner`
body. -/
inductive BalancedSeq : List CanvasOp → Prop
  | nil : BalancedSeq []
  | cons {body rest : List CanvasOp} :
      Inner body → BalancedSeq rest → BalancedSeq (.save :: body ++ .restore :: rest)

/-- All drawing states a canvas currently owns: the current state plus every
saved snapshot. -/
def CanvasM.allStates (c : CanvasM) : List CanvasState :=
  c.state :: c.savedStateList

/-- A whole process: every live canvas plus the process-wide clip-identity
allocation count of `NextClipID`. -/
structure ProcessM where
  canvases : List CanvasM
  allocCount : ℕ
deriving DecidableEq, Repr

/-- The process before any canvas is created. -/
def ProcessM.init : ProcessM := ⟨[], 0⟩

/-- All drawing states live anywhere in the process. -/
def ProcessM.allStates (p : ProcessM) : List CanvasState :=
  p.canvases.flatMap CanvasM.allStates

/-- One step of the process: construct a canvas on a surface, or apply a
canvas operation to the i-th canvas. -/
inductive ProcStep
  | newCanvas (surface : SurfaceM)
  | canvasOp (i : ℕ) (op : CanvasOp)

/-- Process transition function. -/
def applyStep (p : ProcessM) : ProcStep → ProcessM
  | .newCanvas s =>
    let made := CanvasM.make s p.allocCount
    ⟨p.canvases ++ [made.1], made.2⟩
  | .canvasOp i op =>
    match p.canvases[i]? with
    | none => p
    | some c =>
      let r := applyOp (c, p.allocCount) op
      ⟨p.canvases.set i r.1, r.2⟩

/-- Processes reachable from the initial (canvas-free) process. -/
inductive Reachable : ProcessM → Prop
  | init : Reachable ProcessM.init
  | step {p : ProcessM} (s : ProcStep) : Reachable p → Reachable (applyStep p s)

/-- An opaque fragment processor: only the presence of processors on a paint
matters to the fast-path decision. -/
inductive FragmentProcessorM
  | mk
deriving DecidableEq, Repr

/-- `GpuPaint` (from `gpu/GpuPaint.h`): the resolved paint `fillPath` hands to
`drawAsClear` — a premultiplied color plus the chains of color and coverage
fragment processors. -/
structure GpuPaintM where
  color : ColorQ
  colorFragmentProcessors : List FragmentProcessorM
  coverageFragmentProcessors : List FragmentProcessorM
deriving DecidableEq, Repr

/-- `Canvas::drawAsClear(path, paint)` from `Canvas.cpp`.  Returns `none` when
the fast path is rejected (the caller then continues to the GPU raster
pipeline), and `some (color, rect)` when the draw is replaced by
`ClearOp::Make(color, rect)` — in that case `fillPath` returns immediately
and no raster operation is emitted for the draw.

Arguments standing for external calls: `pathAsRect` is `path.asRect(...)`,
`clipAsRect` is the clip path's `asRect` inside `getClipRect`, and
`writeSwizzle` is `caps->getWriteSwizzle(format).applyTo` of the backend. -/
def drawAsClear (pathAsRect : Option RectQ) (paint : GpuPaintM) (matrix : MatrixM)
    (blendMode : BlendMode) (clipAsRect : Option RectQ) (surface : SurfaceM)
    (writeSwizzle : ColorQ → ColorQ) : Option (ColorQ × RectQ) :=
  if ¬(paint.colorFragmentProcessors = [] ∧ paint.coverageFragmentProcessors = [] ∧
      matrix.RectStaysRect) then
    none
  else if blendMode ≠ BlendMode.Clear ∧ blendMode ≠ BlendMode.Src ∧ ¬paint.color.IsOpaque then
    none
  else
    let color1 := if blendMode = BlendMode.Clear then ColorQ.transparent else paint.color
    match pathAsRect with
    | none => none
    | some pRect =>
      let bounds := matrix.mapRect pRect
      if ¬IsPixelAligned bounds then
        none
      else
        let color2 := writeSwizzle color1
        match getClipRect clipAsRect surface with
        | (some rect, useScissor) =>
          if useScissor then
            some (color2, rect.intersect (FlipYIfNeeded bounds surface))
          else if rect.IsEmpty then
            some (color2, FlipYIfNeeded bounds surface)
          else
            none
        | (none, _) => none

/-- Attributes of a cached resource.  (`gpu/Resource.h` is not under `src/`.)
Modelled from the spec: a resource carries an optional recycle key, a byte
size, a last-used timestamp, and "a strong-reference count from external
holders"; `Resource::isPurgeable()` holds when that count is zero, and
`Resource::hasExternalReferences()` when external strong `ResourceKey`
references exist (counted separately in `keyRefs`).  `addedAt` is ghost
instrumentation recording the `addResource` sequence number, used only to
state insertion-order properties. -/
structure ResAttrs where
  recycleKey : Option ℕ
  memoryUsage : ℕ
  lastUsedTime : ℕ
  externalHandleRefs : ℕ
  keyRefs : ℕ
  addedAt : ℕ
deriving DecidableEq, Repr

/-- The state of `ResourceCache`: the two intrusive lists (front = most
recently pushed), the recycle-key index (each bucket in `push_back` order),
the byte counters, the attribute registry, a clock, the ghost `addResource`
counter, and the log of resources whose `release(true)` ran (evicted). -/
structure ResourceCacheM where
  maxBytes : ℕ
  nonpurgeableResources : List ℕ
  purgeableResources : List ℕ
  recycleKeyMap : List (ℕ × List ℕ)
  totalBytes : ℕ
  purgeableBytes : ℕ
  attrs : List (ℕ × ResAttrs)
  now : ℕ
  addSeq : ℕ
  released : List ℕ
deriving DecidableEq, Repr

namespace ResourceCacheM

/-- `ResourceCache::ResourceCache`: empty lists, the given byte budget. -/
def emptyCache (maxB : ℕ) : ResourceCacheM := ⟨maxB, [], [], [], 0, 0, [], 0, 0, []⟩

/-- The default budget, `DefaultMaxBytes = 96MB`. -/
def defaultMaxBytes : ℕ := 96 * 2 ^ 20

/-- Registry lookup. -/
def getAttrs (c : ResourceCacheM) (rid : ℕ) : Option ResAttrs :=
  c.attrs.lookup rid

/-- The resource's byte size (0 if unknown). -/
def memOf (c : ResourceCacheM) (rid : ℕ) : ℕ :=
  ((c.getAttrs rid).map ResAttrs.memoryUsage).getD 0

/-- The resource's last-used timestamp (0 if unknown). -/
def lastUsedOf (c : ResourceCacheM) (rid : ℕ) : ℕ :=
  ((c.getAttrs rid).map ResAttrs.lastUsedTime).getD 0

/-- The resource's ghost insertion index (0 if unknown). -/
def addedAtOf (c : ResourceCacheM) (rid : ℕ) : ℕ :=
  ((c.getAttrs rid).map ResAttrs.addedAt).getD 0

/-- The resource's external strong-handle count (0 if unknown). -/
def handleRefsOf (c : ResourceCacheM) (rid : ℕ) : ℕ :=
  ((c.getAttrs rid).map ResAttrs.externalHandleRefs).getD 0

/-- The resource's recycle key (none if unknown). -/
def recycleKeyOf (c : ResourceCacheM) (rid : ℕ) : Option ℕ :=
  ((c.getAttrs rid).map ResAttrs.recycleKey).getD none

/-- `Resource::isPurgeable()`: no external strong references to the resource
object.  Modelled from the spec ("Purgeable: a cached resource with zero
external strong references"). -/
def isPurgeable (c : ResourceCacheM) (rid : ℕ) : Bool :=
  decide (c.handleRefsOf rid = 0) && (c.getAttrs rid).isSome

/-- `Resource::hasExternalReferences()`: live external strong `ResourceKey`
references.  Modelled from the spec. -/
def hasExternalReferences (c : ResourceCacheM) (rid : ℕ) : Bool :=
  decide (((c.getAttrs rid).map ResAttrs.keyRefs).getD 0 ≠ 0)

/-- Point update of the registry. -/
def updateAttrs (c : ResourceCacheM) (rid : ℕ) (f : ResAttrs → ResAttrs) : ResourceCacheM :=
  { c with attrs := c.attrs.map (fun pr => if pr.1 = rid then (pr.1, f pr.2) else pr) }

/-- `recycleKeyMap[recycleKey].push_back(resource)`. -/
def addToRecycleMap : List (ℕ × List ℕ) → ℕ → ℕ → List (ℕ × List ℕ)
  | [], k, rid => [(k, [rid])]
  | (k', l) :: rest, k, rid =>
    if k' = k then (k', l ++ [rid]) :: rest
    else (k', l) :: addToRecycleMap rest k rid

/-- Erase a resource from its recycle bucket (`std::remove` + bucket erase
when it becomes empty), from `ResourceCache::removeResource`. -/
def removeFromRecycleMap : List (ℕ × List ℕ) → ℕ → ℕ → List (ℕ × List ℕ)
  | [], _, _ => []
  | (k', l) :: rest, k, rid =>
    if k' = k then
      let l2 := l.filter (fun r => r ≠ rid)
      if l2.isEmpty then rest else (k', l2) :: rest
    else (k', l) :: removeFromRecycleMap rest k rid

/-- `ResourceCache::addResource(resource, recycleKey)`: index the recycle key,
grow `totalBytes`, push onto the non-purgeable list.  The returned
`std::shared_ptr` hands the caller one external strong handle, so the
resource starts with `externalHandleRefs = 1`. -/
def addResource (c : ResourceCacheM) (rid : ℕ) (recycleKey : Option ℕ) (mem : ℕ) :
    ResourceCacheM :=
  { c with
    recycleKeyMap :=
      match recycleKey with
      | some k => addToRecycleMap c.recycleKeyMap k rid
      | none => c.recycleKeyMap
    totalBytes := c.totalBytes + mem
    nonpurgeableResources := rid :: c.nonpurgeableResources
    attrs := (rid, ⟨recycleKey, mem, 0, 1, 0, c.addSeq⟩) :: c.attrs
    addSeq := c.addSeq + 1 }

/-- Environment action: one external `std::shared_ptr` handle is destroyed.
The cache is not notified (the purgeable transition is lazy). -/
def dropExternalHandle (c : ResourceCacheM) (rid : ℕ) : ResourceCacheM :=
  c.updateAttrs rid (fun a => { a with externalHandleRefs := a.externalHandleRefs - 1 })

/-- Environment action: the microsecond clock advances. -/
def tick (c : ResourceCacheM) : ResourceCacheM := { c with now := c.now + 1 }

/-- `ResourceCache::refResource(resource)`: if the resource sits in the
purgeable list, move it back to the non-purgeable list and shrink
`purgeableBytes`; returning `resource->reference` hands the caller one more
external strong handle. -/
def refResource (c : ResourceCacheM) (rid : ℕ) : ResourceCacheM :=
  let c1 :=
    if rid ∈ c.purgeableResources then
      { c with
        purgeableResources := c.purgeableResources.erase rid
        purgeableBytes := c.purgeableBytes - c.memOf rid
        nonpurgeableResources := rid :: c.nonpurgeableResources }
    else c
  c1.updateAttrs rid (fun a => { a with externalHandleRefs := a.externalHandleRefs + 1 })

/-- `ResourceCache::findRecyclableResource(recycleKey)`: scan the recycle
bucket in insertion order for the first resource that is purgeable and has no
external references, and `refResource` it. -/
def findRecyclableResource (c : ResourceCacheM) (key : ℕ) : Option ℕ × ResourceCacheM :=
  match c.recycleKeyMap.lookup key with
  | none => (none, c)
  | some list =>
    match list.find? (fun rid => c.isPurgeable rid && !c.hasExternalReferences rid) with
    | none => (none, c)
    | some rid => (some rid, c.refResource rid)

/-- `ResourceCache::removeResource(resource)`: drop the recycle-key index
entry, shrink `totalBytes`, release the GPU object and destroy the resource
(the caller has already removed it from its cached list). -/
def removeResource (c : ResourceCacheM) (rid : ℕ) : ResourceCacheM :=
  let mem := c.memOf rid
  let c1 :=
    match c.recycleKeyOf rid with
    | some k => { c with recycleKeyMap := removeFromRecycleMap c.recycleKeyMap k rid }
    | none => c
  { c1 with
    totalBytes := c1.totalBytes - mem
    attrs := c1.attrs.filter (fun pr => pr.1 ≠ rid)
    released := rid :: c1.released }

/-- One iteration of the second loop of
`ResourceCache::processUnreferencedResources`: take the resource off the
non-purgeable list; with a valid recycle key it becomes purgeable (stamped
with the current time), otherwise it is destroyed immediately. -/
def processOne (c : ResourceCacheM) (rid : ℕ) : ResourceCacheM :=
  let c1 := { c with nonpurgeableResources := c.nonpurgeableResources.erase rid }
  match c1.recycleKeyOf rid with
  | some _ =>
    let c2 := { c1 with
      purgeableResources := rid :: c1.purgeableResources
      purgeableBytes := c1.purgeableBytes + c1.memOf rid }
    c2.updateAttrs rid (fun a => { a with lastUsedTime := c2.now })
  | none => c1.removeResource rid

/-- `ResourceCache::processUnreferencedResources()`: snapshot the purgeable
candidates from the non-purgeable list, then process each. -/
def processUnreferencedResources (c : ResourceCacheM) : ResourceCacheM :=
  let needToPurge := c.nonpurgeableResources.filter (fun rid => c.isPurgeable rid)
  needToPurge.foldl processOne c

/-- One eviction inside `ResourceCache::purgeResourcesByLRU`: take the
resource off the purgeable list, shrink `purgeableBytes`, then
`removeResource`. -/
def purgeOne (c : ResourceCacheM) (rid : ℕ) : ResourceCacheM :=
  let c1 := { c with
    purgeableResources := c.purgeableResources.erase rid
    purgeableBytes := c.purgeableBytes - c.memOf rid }
  c1.removeResource rid

/-- `ResourceCache::purgeResourcesByLRU(recyclableResourcesOnly, satisfied)`:
process unreferenced resources, then walk the purgeable list from the
least-recently-used end, stopping at the first resource for which `satisfied`
holds, collecting the rest (subject to the recyclable-only filter), and purge
them.  `satisfied` receives the post-process state, whose counters are what
the C++ closure reads during the scan (the scan itself mutates nothing). -/
def purgeResourcesByLRU (c : ResourceCacheM) (recyclableResourcesOnly : Bool)
    (satisfied : ResourceCacheM → ℕ → Bool) : ResourceCacheM :=
  let c1 := c.processUnreferencedResources
  let scanned := c1.purgeableResources.reverse.takeWhile (fun rid => !satisfied c1 rid)
  let needToPurge := scanned.filter
    (fun rid => !recyclableResourcesOnly || !c1.hasExternalReferences rid)
  needToPurge.foldl purgeOne c1

/-- `ResourceCache::purgeUntilMemoryTo(bytesLimit, recyclableResourcesOnly)`. -/
def purgeUntilMemoryTo (c : ResourceCacheM) (bytesLimit : ℕ)
    (recyclableResourcesOnly : Bool) : ResourceCacheM :=
  c.purgeResourcesByLRU recyclableResourcesOnly
    (fun st _ => decide (st.totalBytes ≤ bytesLimit))

/-- `ResourceCache::setCacheLimit(bytesLimit)`: no-op when the budget does not
change, otherwise store it and purge down to it. -/
def setCacheLimit (c : ResourceCacheM) (bytesLimit : ℕ) : ResourceCacheM :=
  if c.maxBytes = bytesLimit then c
  else purgeUntilMemoryTo { c with maxBytes := bytesLimit } bytesLimit false

/-- A sample cache for evaluating the recycle path on concrete input: two
resources share recycle key `7` and were added in the order `0, 1`; both have
since lost their external handles and moved to the purgeable list, resource
`1` carrying the later `lastUsedTime`. -/
def recycleDemo : ResourceCacheM :=
  (((((emptyCache defaultMaxBytes).addResource 0 (some 7) 16).addResource 1 (some 7) 16
    ).dropExternalHandle 0).processUnreferencedResources.tick.dropExternalHandle 1
    ).processUnreferencedResources

/-- A sample cache for evaluating the purge path on concrete input: resource
`5` (recycle key `3`, 4 bytes) has lost its external handle, resource `6`
(no recycle key, 8 bytes) is still externally referenced. -/
def purgeDemo : ResourceCacheM :=
  (((emptyCache defaultMaxBytes).addResource 5 (some 3) 4).addResource 6 none 8
    ).dropExternalHandle 5

/-- A cache whose byte budget is already zero while a purgeable resource sits
in its lists. -/
def zeroLimitDemo : ResourceCacheM :=
  ((emptyCache 0).addResource 5 (some 3) 4).dropExternalHandle 5

/-- Basic well-formedness of a cache state, as maintained by the C++
implementation: the intrusive lists are duplicate-free and disjoint; the
registry keys are unique and coincide with the union of the two lists;
resources on the purgeable list have no external strong handles; byte sizes
are positive; the byte counters are the sums the implementation maintains;
and every recycle bucket holds live resources carrying that key, in
insertion order (ghost `addedAt` ascending). -/
def WF (c : ResourceCacheM) : Prop :=
  c.nonpurgeableResources.Nodup ∧
  c.purgeableResources.Nodup ∧
  (∀ rid ∈ c.nonpurgeableResources, rid ∉ c.purgeableResources) ∧
  (c.attrs.map Prod.fst).Nodup ∧
  (∀ pr ∈ c.attrs, pr.1 ∈ c.nonpurgeableResources ∨ pr.1 ∈ c.purgeableResources) ∧
  (∀ rid ∈ c.nonpurgeableResources ++ c.purgeableResources, (c.getAttrs rid).isSome) ∧
  (∀ rid ∈ c.purgeableResources, c.handleRefsOf rid = 0) ∧
  (∀ pr ∈ c.attrs, 0 < (pr.2 : ResAttrs).memoryUsage) ∧
  c.totalBytes = ((c.nonpurgeableResources ++ c.purgeableResources).map c.memOf).sum ∧
  c.purgeableBytes = (c.purgeableResources.map c.memOf).sum ∧
  (∀ en ∈ c.recycleKeyMap, ∀ rid ∈ en.2,
    c.recycleKeyOf rid = some en.1 ∧ (c.getAttrs rid).isSome) ∧
  (∀ en ∈ c.recycleKeyMap,
    (en.2 : List ℕ).Pairwise (fun a b => c.addedAtOf a ≤ c.addedAtOf b))

instance (c : ResourceCacheM) : Decidable (WF c) := by
  unfold WF; exact inferInstance

/-- The bookkeeping invariant the purge paths maintain: duplicate-free and
disjoint lists, live registry entries for every listed resource, positive
byte sizes, and the two byte counters equal to the sums they track. -/
def CoreInv (c : ResourceCacheM) : Prop :=
  c.nonpurgeableResources.Nodup ∧
  c.purgeableResources.Nodup ∧
  (∀ rid ∈ c.nonpurgeableResources, rid ∉ c.purgeableResources) ∧
  (∀ rid ∈ c.nonpurgeableResources ++ c.purgeableResources, (c.getAttrs rid).isSome) ∧
  (∀ pr ∈ c.attrs, 0 < (pr.2 : ResAttrs).memoryUsage) ∧
  c.totalBytes = ((c.nonpurgeableResources ++ c.purgeableResources).map c.memOf).sum ∧
  c.purgeableBytes = (c.purgeableResources.map c.memOf).sum

end ResourceCacheM

/-- The state of `ProgramCache`: the LRU list of compiled programs paired
with their unique keys (front = most recently used, mirroring
`programLRU.push_front`), the key-to-program map, a counter minting program
identities, the number of successful `createProgram` calls, and the log of
programs whose `onReleaseGPU` ran. -/
structure ProgramCacheM where
  programLRU : List (ℕ × ℕ)
  programMap : List (ℕ × ℕ)
  nextProgram : ℕ
  compiled : ℕ
  releasedGPU : List ℕ
deriving DecidableEq, Repr

namespace ProgramCacheM

/-- `MAX_PROGRAM_COUNT = 128`. -/
def MAX_PROGRAM_COUNT : ℕ := 128

/-- `ProgramCache::removeOldestProgram(releaseGPU = true)`: take the
least-recently-used program off the back of `programLRU`, erase its unique
key from `programMap`, release its GPU handle and destroy it. -/
def removeOldestProgram (c : ProgramCacheM) : ProgramCacheM :=
  match c.programLRU.getLast? with
  | none => c
  | some pr =>
    { c with
      programLRU := c.programLRU.dropLast
      programMap := c.programMap.filter (fun en => en.1 ≠ pr.2)
      releasedGPU := pr.1 :: c.releasedGPU }

/-- The `while (programLRU.size() > MAX_PROGRAM_COUNT) removeOldestProgram()`
loop of `ProgramCache::getProgram`. -/
def evictWhileOver (c : ProgramCacheM) : ProgramCacheM :=
  if _h : MAX_PROGRAM_COUNT < c.programLRU.length then
    evictWhileOver (removeOldestProgram c)
  else c
termination_by c.programLRU.length
decreasing_by
  unfold removeOldestProgram
  rcases hl : c.programLRU.getLast? with _ | pr
  · rw [List.getLast?_eq_none_iff.mp hl] at _h
    cases _h
  · simp only [List.length_dropLast]
    omega

/-- `ProgramCache::getProgram(programInfo)`: `key` is the unique byte key
that `computeUniqueKey` derives from the pipeline description, and
`compileOk` says whether `createProgram` succeeds (the C++ call returns
`nullptr` on failure, which `getProgram` passes through).  A cache hit moves
the program to the front of `programLRU` (`remove` then `push_front`) and
returns it without compiling; a miss compiles, pushes the new program to the
front, records it in `programMap`, then evicts down to the capacity. -/
def getProgram (c : ProgramCacheM) (key : ℕ) (compileOk : Bool) :
    Option ℕ × ProgramCacheM :=
  match c.programMap.lookup key with
  | some pid =>
    (some pid,
      { c with programLRU := (pid, key) :: c.programLRU.filter (fun pr => pr.1 ≠ pid) })
  | none =>
    if compileOk then
      (some c.nextProgram,
        evictWhileOver
          { c with
            programLRU := (c.nextProgram, key) :: c.programLRU
            programMap := (key, c.nextProgram) :: c.programMap
            nextProgram := c.nextProgram + 1
            compiled := c.compiled + 1 })
    else (none, c)

/-- A sample program cache at capacity: 128 programs, program `i + 3` holding
unique key `i + 7`, with one map entry recording that key `7` belongs to
program `3`. -/
def pcDemo : ProgramCacheM :=
  ⟨(List.range MAX_PROGRAM_COUNT).map (fun i => (i + 3, i + 7)), [(7, 3)], 200, 0, []⟩

end ProgramCacheM

/-- Evaluation helper for `roundScalar` at non-negative scalars. -/
theorem roundScalar_eq_of_nonneg {x : ℚ} {n : ℤ} (hx : 0 ≤ x) (h1 : (n : ℚ) ≤ x + 1/2)
    (h2 : x + 1/2 < n + 1) : RectQ.roundScalar x = n := by
  unfold RectQ.roundScalar
  rw [if_neg (not_lt.mpr hx)]
  exact_mod_cast congrArg (fun z : ℤ => (z : ℚ)) (Int.floor_eq_iff.mpr ⟨h1, by exact_mod_cast h2⟩)

/-- `roundScalar` fixes integer scalars. -/
theorem roundScalar_natCast (n : ℕ) : RectQ.roundScalar (n : ℚ) = n := by
  have := roundScalar_eq_of_nonneg (x := (n : ℚ)) (n := (n : ℤ))
    (by positivity) (by push_cast; linarith) (by push_cast; linarith)
  simpa using this

/-- C1: the clip resolver's case analysis, in the order the code checks the
cases.  If the clip path fully contains the device bounds, no clip treatment
is produced.  Otherwise, if the clip is a single rectangle whose origin-flip
is pixel-aligned within the tolerance and whose rounding is a strict
sub-rectangle of the surface, it resolves to a hardware scissor.  Otherwise,
if the clip is a rectangle that is not pixel-aligned (and not degenerate), it
resolves to analytic coverage (`AARectEffect`) and never to a scissor.
Otherwise (the clip is not a single rectangle) it resolves to the rasterized
mask texture. -/
theorem getClipMask_cases (surface : SurfaceM) (clipContains : Bool)
    (clipAsRect : Option RectQ) :
    (clipContains = true → getClipMask clipContains clipAsRect surface = .noClip) ∧
    (∀ r, clipContains = false → clipAsRect = some r →
      IsPixelAligned (FlipYIfNeeded r surface) →
      RectQ.SubsetOf (RectQ.round (FlipYIfNeeded r surface))
        (RectQ.makeWH surface.width surface.height) →
      RectQ.round (FlipYIfNeeded r surface) ≠ RectQ.makeWH surface.width surface.height →
      getClipMask clipContains clipAsRect surface =
        .scissor (RectQ.round (FlipYIfNeeded r surface))) ∧
    (∀ r, clipContains = false → clipAsRect = some r →
      ¬IsPixelAligned (FlipYIfNeeded r surface) →
      ¬(FlipYIfNeeded r surface).IsEmpty →
      getClipMask clipContains clipAsRect surface = .aaRect (FlipYIfNeeded r surface) ∧
      ∀ s, getClipMask clipContains clipAsRect surface ≠ .scissor s) ∧
    (clipContains = false → clipAsRect = none →
      getClipMask clipContains clipAsRect surface = .maskTexture) := by
  refine ⟨fun hc => ?_, fun r hc hrect halign _hsub hne => ?_, fun r hc hrect halign hne => ?_,
    fun hc hnone => ?_⟩
  · simp [getClipMask, hc]
  · subst hrect; subst hc
    unfold getClipMask getClipRect
    simp only [Bool.false_eq_true, if_false]
    rw [if_pos halign, if_pos hne]
    rfl
  · subst hrect; subst hc
    have h1 : getClipMask false (some r) surface = .aaRect (FlipYIfNeeded r surface) := by
      unfold getClipMask getClipRect
      simp only [Bool.false_eq_true, if_false]
      rw [if_neg halign]
      simp only [Bool.false_eq_true, if_false]
      rw [if_pos hne]
    exact ⟨h1, fun s => by rw [h1]; intro h; cases h⟩
  · subst hnone
    simp [getClipMask, hc, getClipRect]

/-- Witness for C1: the four cases instantiated on a 16×16 top-left surface
with concrete rect clips. -/
theorem getClipMask_cases_witness :
    getClipMask true (some ⟨0, 0, 8, 8⟩) ⟨16, 16, .TopLeft⟩ = .noClip ∧
    getClipMask false (some ⟨0, 0, 8, 8⟩) ⟨16, 16, .TopLeft⟩ = .scissor ⟨0, 0, 8, 8⟩ ∧
    getClipMask false (some ⟨0, 0, 17/2, 8⟩) ⟨16, 16, .TopLeft⟩ = .aaRect ⟨0, 0, 17/2, 8⟩ ∧
    getClipMask false none ⟨16, 16, .TopLeft⟩ = .maskTexture := by
  have hr0 : RectQ.roundScalar 0 = 0 := by
    simpa using roundScalar_natCast 0
  have hr8 : RectQ.roundScalar 8 = 8 := by
    simpa using roundScalar_natCast 8
  have hr17 : RectQ.roundScalar (17/2) = 9 := by
    have := roundScalar_eq_of_nonneg (x := 17/2) (n := 9) (by norm_num) (by norm_num)
      (by norm_num)
    simpa using this
  have hflip : FlipYIfNeeded ⟨0, 0, 8, 8⟩ ⟨16, 16, .TopLeft⟩ = ⟨0, 0, 8, 8⟩ := rfl
  have hflip2 : FlipYIfNeeded ⟨0, 0, 17/2, 8⟩ ⟨16, 16, .TopLeft⟩ = ⟨0, 0, 17/2, 8⟩ := rfl
  have halign : IsPixelAligned (⟨0, 0, 8, 8⟩ : RectQ) := by
    unfold IsPixelAligned boundsTolerance
    norm_num [hr0, hr8]
  have hnotalign : ¬IsPixelAligned (⟨0, 0, 17/2, 8⟩ : RectQ) := by
    unfold IsPixelAligned boundsTolerance
    intro h
    have h3 := h.2.2.1
    rw [hr17, show (9 : ℚ) - 17/2 = 1/2 by norm_num,
      abs_of_nonneg (by norm_num : (0 : ℚ) ≤ 1/2)] at h3
    norm_num at h3
  have hround : RectQ.round (⟨0, 0, 8, 8⟩ : RectQ) = ⟨0, 0, 8, 8⟩ := by
    unfold RectQ.round
    rw [hr0, hr8]
  refine ⟨(getClipMask_cases ⟨16, 16, .TopLeft⟩ true (some ⟨0, 0, 8, 8⟩)).1 rfl, ?_, ?_,
    (getClipMask_cases ⟨16, 16, .TopLeft⟩ false none).2.2.2 rfl rfl⟩
  · have h := (getClipMask_cases ⟨16, 16, .TopLeft⟩ false (some ⟨0, 0, 8, 8⟩)).2.1
      ⟨0, 0, 8, 8⟩ rfl rfl (by rw [hflip]; exact halign)
      (by rw [hflip, hround]; unfold RectQ.SubsetOf RectQ.makeWH; norm_num)
      (by rw [hflip, hround]; unfold RectQ.makeWH; intro h; injection h; norm_num at *)
    rw [h, hflip, hround]
  · exact ((getClipMask_cases ⟨16, 16, .TopLeft⟩ false (some ⟨0, 0, 17/2, 8⟩)).2.2.1
      ⟨0, 0, 17/2, 8⟩ rfl rfl (by rw [hflip2]; exact hnotalign)
      (by rw [hflip2]; unfold RectQ.IsEmpty; norm_num)).1

theorem applyOp_mutation_frame {op : CanvasOp} (h : op.IsStateMutation) (c : CanvasM) (n : ℕ) :
    (applyOp (c, n) op).1.savedStateList = c.savedStateList ∧
    (applyOp (c, n) op).1.ops = c.ops ∧
    (applyOp (c, n) op).1.surface = c.surface := by
  cases op <;> simp [CanvasOp.IsStateMutation] at h <;>
    simp [applyOp, CanvasM.setMatrix, CanvasM.resetMatrix, CanvasM.concat, CanvasM.setAlpha,
      CanvasM.setBlendMode, CanvasM.clipRect, CanvasM.clipPath]

theorem runOps_inner_frame {l : List CanvasOp} (h : Inner l) :
    ∀ c n, (runOps (c, n) l).1.savedStateList = c.savedStateList ∧
      (runOps (c, n) l).1.ops = c.ops ∧ (runOps (c, n) l).1.surface = c.surface := by
  induction h with
  | nil => exact fun c n => ⟨rfl, rfl, rfl⟩
  | @mutStep op l hop _ ih =>
    intro c n
    have hstep : runOps (c, n) (op :: l) = runOps (applyOp (c, n) op) l := rfl
    rw [hstep]
    obtain ⟨h1, h2, h3⟩ := applyOp_mutation_frame hop c n
    obtain ⟨g1, g2, g3⟩ := ih (applyOp (c, n) op).1 (applyOp (c, n) op).2
    rw [Prod.mk.eta] at g1 g2 g3
    exact ⟨g1.trans h1, g2.trans h2, g3.trans h3⟩
  | @wrap body rest _ _ ihBody ihRest =>
    intro c n
    have hsplit : runOps (c, n) (.save :: body ++ .restore :: rest) =
        runOps (applyOp (runOps (c.save, n) body) .restore) rest := by
      show List.foldl applyOp (c.save, n) (body ++ .restore :: rest) = _
      rw [List.foldl_append]
      rfl
    rw [hsplit]
    obtain ⟨b1, b2, b3⟩ := ihBody c.save n
    rcases hb : runOps (c.save, n) body with ⟨c2, n2⟩
    rw [hb] at b1 b2 b3
    have hsaved2 : c2.savedStateList = c.savedStateList ++ [c.state] := by
      simpa [CanvasM.save] using b1
    have hrestore : applyOp (c2, n2) .restore =
        ({ c2 with state := c.state, savedStateList := c.savedStateList }, n2) := by
      simp [applyOp, CanvasM.restore, hsaved2, List.getLast?_concat]
    rw [hrestore]
    obtain ⟨r1, r2, r3⟩ :=
      ihRest { c2 with state := c.state, savedStateList := c.savedStateList } n2
    refine ⟨r1.trans rfl, r2.trans ?_, r3.trans ?_⟩
    · simpa [CanvasM.save] using b2
    · simpa [CanvasM.save] using b3

/-- C4: after any sequence of balanced `save`/`restore` pairs, with arbitrary
state mutations (`setMatrix`, `setAlpha`, `setBlendMode`, `concat`,
`clipRect`, `clipPath`) and nested balanced pairs between each `save` and its
matching `restore`, the canvas is exactly what it was before the sequence:
same drawing state (matrix, alpha, blend mode, clip, clip identity), same
saved-state stack (in particular the same stack depth), and no operation
emitted. -/
theorem balanced_save_restore_roundtrip {l : List CanvasOp} (h : BalancedSeq l) :
    ∀ c n, (runOps (c, n) l).1 = c := by
  induction h with
  | nil => exact fun c n => rfl
  | @cons body rest hbody _ ihRest =>
    intro c n
    have hsplit : runOps (c, n) (.save :: body ++ .restore :: rest) =
        runOps (applyOp (runOps (c.save, n) body) .restore) rest := by
      show List.foldl applyOp (c.save, n) (body ++ .restore :: rest) = _
      rw [List.foldl_append]
      rfl
    rw [hsplit]
    obtain ⟨b1, b2, b3⟩ := runOps_inner_frame hbody c.save n
    rcases hb : runOps (c.save, n) body with ⟨c2, n2⟩
    rw [hb] at b1 b2 b3
    have hsaved2 : c2.savedStateList = c.savedStateList ++ [c.state] := by
      simpa [CanvasM.save] using b1
    have hops2 : c2.ops = c.ops := by simpa [CanvasM.save] using b2
    have hsurf2 : c2.surface = c.surface := by simpa [CanvasM.save] using b3
    have hrestore : applyOp (c2, n2) .restore =
        ({ c2 with state := c.state, savedStateList := c.savedStateList }, n2) := by
      simp [applyOp, CanvasM.restore, hsaved2, List.getLast?_concat]
    rw [hrestore]
    have hcanvas : ({ c2 with state := c.state, savedStateList := c.savedStateList } :
        CanvasM) = c := CanvasM.ext hsurf2 rfl rfl hops2
    rw [hcanvas]
    exact ihRest c n2

/-- Witness for C4: one balanced pair with an alpha mutation inside, run on a
freshly constructed canvas, lands back on the same canvas. -/
theorem balanced_save_restore_roundtrip_witness :
    (runOps ((CanvasM.make ⟨16, 16, .TopLeft⟩ 0).1, 1)
      [.save, .setAlpha (1/2), .restore]).1 = (CanvasM.make ⟨16, 16, .TopLeft⟩ 0).1 :=
  balanced_save_restore_roundtrip
    (BalancedSeq.cons (Inner.mutStep (by trivial) Inner.nil) BalancedSeq.nil) _ _

/-- C9: `restore()` on an empty saved-state stack is a no-op: the canvas
(drawing state, stack, operation log) and the identity-allocation count are
unchanged, and no error is raised (the operation is total). -/
theorem restore_empty_stack_noop (c : CanvasM) (n : ℕ) (h : c.savedStateList = []) :
    applyOp (c, n) .restore = (c, n) := by
  simp [applyOp, CanvasM.restore, h]

/-- Witness for C9: `restore` on a freshly constructed canvas (empty stack). -/
theorem restore_empty_stack_noop_witness :
    applyOp ((CanvasM.make ⟨16, 16, .TopLeft⟩ 0).1, 1) .restore =
      ((CanvasM.make ⟨16, 16, .TopLeft⟩ 0).1, 1) :=
  restore_empty_stack_noop (CanvasM.make ⟨16, 16, .TopLeft⟩ 0).1 1 rfl

theorem clear_frame (c : CanvasM) :
    (c.clear).state = c.state ∧ (c.clear).savedStateList = c.savedStateList := by
  cases c with
  | mk surface state saved ops =>
    cases state
    simp [CanvasM.clear, CanvasM.setBlendMode, CanvasM.drawRect]

/-- Per-operation accounting of `(clipID, clip)` pairs: an operation either
leaves the allocation count alone and only rearranges existing pairs, or
allocates exactly once and introduces at most one fresh pair carrying the
freshly issued identity. -/
theorem applyOp_clipPairs (c : CanvasM) (n : ℕ) (op : CanvasOp) :
    ((applyOp (c, n) op).2 = n ∧
      ∀ st ∈ (applyOp (c, n) op).1.allStates, ∃ st0 ∈ c.allStates,
        st.clipID = st0.clipID ∧ st.clip = st0.clip) ∨
    ((applyOp (c, n) op).2 = n + 1 ∧ ∃ freshClip : PathM,
      ∀ st ∈ (applyOp (c, n) op).1.allStates,
        (st.clipID = n % clipIDPeriod + 1 ∧ st.clip = freshClip) ∨
        ∃ st0 ∈ c.allStates, st.clipID = st0.clipID ∧ st.clip = st0.clip) := by
  cases op with
  | save =>
    left
    refine ⟨rfl, fun st hst => ⟨st, ?_, rfl, rfl⟩⟩
    simp only [applyOp, CanvasM.save, CanvasM.allStates, List.mem_cons, List.mem_append,
      List.mem_singleton] at hst ⊢
    tauto
  | restore =>
    left
    refine ⟨rfl, fun st hst => ⟨st, ?_, rfl, rfl⟩⟩
    simp only [applyOp, CanvasM.restore] at hst
    rcases hlast : c.savedStateList.getLast? with _ | s
    · rw [hlast] at hst
      exact hst
    · rw [hlast] at hst
      simp only [CanvasM.allStates, List.mem_cons] at hst ⊢
      rcases hst with rfl | hst
      · exact Or.inr (List.mem_of_mem_getLast? hlast)
      · exact Or.inr (List.dropLast_subset _ hst)
  | setMatrix m =>
    left
    refine ⟨rfl, fun st hst => ?_⟩
    simp only [applyOp, CanvasM.setMatrix, CanvasM.allStates, List.mem_cons] at hst
    rcases hst with rfl | hst
    · exact ⟨c.state, by simp [CanvasM.allStates], rfl, rfl⟩
    · exact ⟨st, by simp [CanvasM.allStates, hst], rfl, rfl⟩
  | resetMatrix =>
    left
    refine ⟨rfl, fun st hst => ?_⟩
    simp only [applyOp, CanvasM.resetMatrix, CanvasM.allStates, List.mem_cons] at hst
    rcases hst with rfl | hst
    · exact ⟨c.state, by simp [CanvasM.allStates], rfl, rfl⟩
    · exact ⟨st, by simp [CanvasM.allStates, hst], rfl, rfl⟩
  | concat m =>
    left
    refine ⟨rfl, fun st hst => ?_⟩
    simp only [applyOp, CanvasM.concat, CanvasM.allStates, List.mem_cons] at hst
    rcases hst with rfl | hst
    · exact ⟨c.state, by simp [CanvasM.allStates], rfl, rfl⟩
    · exact ⟨st, by simp [CanvasM.allStates, hst], rfl, rfl⟩
  | setAlpha a =>
    left
    refine ⟨rfl, fun st hst => ?_⟩
    simp only [applyOp, CanvasM.setAlpha, CanvasM.allStates, List.mem_cons] at hst
    rcases hst with rfl | hst
    · exact ⟨c.state, by simp [CanvasM.allStates], rfl, rfl⟩
    · exact ⟨st, by simp [CanvasM.allStates, hst], rfl, rfl⟩
  | setBlendMode b =>
    left
    refine ⟨rfl, fun st hst => ?_⟩
    simp only [applyOp, CanvasM.setBlendMode, CanvasM.allStates, List.mem_cons] at hst
    rcases hst with rfl | hst
    · exact ⟨c.state, by simp [CanvasM.allStates], rfl, rfl⟩
    · exact ⟨st, by simp [CanvasM.allStates, hst], rfl, rfl⟩
  | clipRect r =>
    right
    refine ⟨rfl, PathM.addPathIntersect
      (PathM.transformed c.state.matrix (PathM.addRect r .empty)) c.state.clip,
      fun st hst => ?_⟩
    simp only [applyOp, CanvasM.clipRect, CanvasM.clipPath, NextClipID, CanvasM.allStates,
      List.mem_cons] at hst
    rcases hst with rfl | hst
    · exact Or.inl ⟨rfl, rfl⟩
    · exact Or.inr ⟨st, by simp [CanvasM.allStates, hst], rfl, rfl⟩
  | clipPath path =>
    right
    refine ⟨rfl, PathM.addPathIntersect
      (PathM.transformed c.state.matrix path) c.state.clip, fun st hst => ?_⟩
    simp only [applyOp, CanvasM.clipPath, NextClipID, CanvasM.allStates,
      List.mem_cons] at hst
    rcases hst with rfl | hst
    · exact Or.inl ⟨rfl, rfl⟩
    · exact Or.inr ⟨st, by simp [CanvasM.allStates, hst], rfl, rfl⟩
  | clear =>
    left
    refine ⟨rfl, fun st hst => ?_⟩
    have hstate := clear_frame c
    simp only [applyOp, CanvasM.allStates, List.mem_cons] at hst
    rcases hst with rfl | hst
    · exact ⟨c.state, by simp [CanvasM.allStates], congrArg CanvasState.clipID hstate.1,
        congrArg CanvasState.clip hstate.1⟩
    · rw [hstate.2] at hst
      exact ⟨st, by simp [CanvasM.allStates, hst], rfl, rfl⟩
  | drawRect =>
    left
    refine ⟨rfl, fun st hst => ?_⟩
    simp only [applyOp, CanvasM.drawRect, CanvasM.allStates, List.mem_cons] at hst
    rcases hst with rfl | hst
    · exact ⟨c.state, by simp [CanvasM.allStates], rfl, rfl⟩
    · exact ⟨st, by simp [CanvasM.allStates, hst], rfl, rfl⟩

/-- The process-wide clip-identity invariant: every issued identity lies in
`[1, allocCount]`, and — as long as the 32-bit counter has not wrapped —
any two live drawing states carrying equal identities carry equal (hence
bit-identical) clip geometry. -/
theorem reachable_clip_invariant {p : ProcessM} (hp : Reachable p) :
    (∀ s ∈ p.allStates, 1 ≤ s.clipID ∧ s.clipID ≤ p.allocCount) ∧
    (p.allocCount ≤ clipIDPeriod →
      ∀ s ∈ p.allStates, ∀ t ∈ p.allStates, s.clipID = t.clipID → s.clip = t.clip) := by
  induction hp with
  | init =>
    exact ⟨fun s hs => by simp [ProcessM.allStates, ProcessM.init] at hs,
      fun _ s hs => by simp [ProcessM.allStates, ProcessM.init] at hs⟩
  | @step p stp _ ih =>
    -- Characterize the states of the next process.
    obtain ⟨ihBounds, ihUnique⟩ := ih
    have key : ((applyStep p stp).allocCount = p.allocCount ∧
        ∀ st ∈ (applyStep p stp).allStates, ∃ st0 ∈ p.allStates,
          st.clipID = st0.clipID ∧ st.clip = st0.clip) ∨
        ((applyStep p stp).allocCount = p.allocCount + 1 ∧ ∃ freshClip : PathM,
        ∀ st ∈ (applyStep p stp).allStates,
          (st.clipID = p.allocCount % clipIDPeriod + 1 ∧ st.clip = freshClip) ∨
          ∃ st0 ∈ p.allStates, st.clipID = st0.clipID ∧ st.clip = st0.clip) := by
      cases stp with
      | newCanvas surf =>
        right
        refine ⟨rfl, PathM.addRect ⟨0, 0, (surf.width : ℚ), (surf.height : ℚ)⟩ .empty,
          fun st hst => ?_⟩
        simp only [applyStep, ProcessM.allStates, CanvasM.make, NextClipID,
          List.flatMap_append, List.mem_append] at hst
        rcases hst with hst | hst
        · exact Or.inr ⟨st, hst, rfl, rfl⟩
        · simp only [List.flatMap_cons, List.flatMap_nil, List.append_nil,
            CanvasM.allStates, List.mem_cons, List.not_mem_nil, or_false] at hst
          subst hst
          exact Or.inl ⟨rfl, rfl⟩
      | canvasOp i op =>
        rcases hlook : p.canvases[i]? with _ | c
        · left
          have hid : applyStep p (.canvasOp i op) = p := by
            simp [applyStep, hlook]
          rw [hid]
          exact ⟨rfl, fun st hst => ⟨st, hst, rfl, rfl⟩⟩
        · have hcmem : c ∈ p.canvases := List.getElem?_mem hlook
          have hmem_new : ∀ st ∈ (applyStep p (.canvasOp i op)).allStates,
              st ∈ (applyOp (c, p.allocCount) op).1.allStates ∨ st ∈ p.allStates := by
            intro st hst
            simp only [applyStep, hlook, ProcessM.allStates, List.mem_flatMap] at hst
            obtain ⟨cc, hcc, hstcc⟩ := hst
            rcases List.mem_or_eq_of_mem_set hcc with hcc | rfl
            · exact Or.inr (List.mem_flatMap.mpr ⟨cc, hcc, hstcc⟩)
            · exact Or.inl hstcc
          have halloc : (applyStep p (.canvasOp i op)).allocCount =
              (applyOp (c, p.allocCount) op).2 := by
            simp [applyStep, hlook]
          rcases applyOp_clipPairs c p.allocCount op with ⟨h1, h2⟩ | ⟨h1, freshClip, h2⟩
          · left
            refine ⟨halloc.trans h1, fun st hst => ?_⟩
            rcases hmem_new st hst with hst | hst
            · obtain ⟨st0, hst0, he⟩ := h2 st hst
              exact ⟨st0, List.mem_flatMap.mpr ⟨c, hcmem, hst0⟩, he⟩
            · exact ⟨st, hst, rfl, rfl⟩
          · right
            refine ⟨halloc.trans h1, freshClip, fun st hst => ?_⟩
            rcases hmem_new st hst with hst | hst
            · rcases h2 st hst with he | ⟨st0, hst0, he⟩
              · exact Or.inl he
              · exact Or.inr ⟨st0, List.mem_flatMap.mpr ⟨c, hcmem, hst0⟩, he⟩
            · exact Or.inr ⟨st, hst, rfl, rfl⟩
    rcases key with ⟨halloc, hsub⟩ | ⟨halloc, freshClip, hsub⟩
    · constructor
      · intro s hs
        obtain ⟨s0, hs0, hid, _⟩ := hsub s hs
        rw [halloc, hid]
        exact ihBounds s0 hs0
      · intro hnw s hs t ht hid
        obtain ⟨s0, hs0, hids, hclips⟩ := hsub s hs
        obtain ⟨t0, ht0, hidt, hclipt⟩ := hsub t ht
        rw [hclips, hclipt]
        exact ihUnique (le_trans (le_of_eq halloc.symm) hnw) s0 hs0 t0 ht0
          (by rw [← hids, ← hidt, hid])
    · have hmod : ∀ m : ℕ, m % clipIDPeriod + 1 ≤ m + 1 :=
        fun m => Nat.succ_le_succ (Nat.mod_le m clipIDPeriod)
      constructor
      · intro s hs
        rw [halloc]
        rcases hsub s hs with ⟨hid, _⟩ | ⟨s0, hs0, hid, _⟩
        · rw [hid]
          exact ⟨Nat.le_add_left 1 _, hmod p.allocCount⟩
        · rw [hid]
          obtain ⟨hb1, hb2⟩ := ihBounds s0 hs0
          exact ⟨hb1, le_trans hb2 (Nat.le_succ _)⟩
      · intro hnw s hs t ht hid
        rw [halloc] at hnw
        have hlt : p.allocCount < clipIDPeriod := Nat.lt_of_succ_le hnw
        have hmodeq : p.allocCount % clipIDPeriod = p.allocCount := Nat.mod_eq_of_lt hlt
        have hfreshBig : ∀ s0 ∈ p.allStates, s0.clipID ≠ p.allocCount % clipIDPeriod + 1 := by
          intro s0 hs0
          have := (ihBounds s0 hs0).2
          omega
        rcases hsub s hs with ⟨hids, hclips⟩ | ⟨s0, hs0, hids, hclips⟩ <;>
          rcases hsub t ht with ⟨hidt, hclipt⟩ | ⟨t0, ht0, hidt, hclipt⟩
        · rw [hclips, hclipt]
        · exact absurd (hidt.symm.trans (hid.symm.trans hids)) (hfreshBig t0 ht0)
        · exact absurd (hids.symm.trans (hid.trans hidt)) (hfreshBig s0 hs0)
        · rw [hclips, hclipt]
          exact ihUnique (le_of_lt hlt) s0 hs0 t0 ht0 (by rw [← hids, ← hidt, hid])

/-- C2 (counterexample): the claimed equivalence "clipIdentity changes if and
only if clipPath changes" fails on the code.  In the process that creates two
canvases over identical 8×8 surfaces, the two current drawing states carry
bit-identical clip geometry (both clips are the freshly built full-surface
rect path) but distinct clip identities (1 and 2), because every canvas
constructor draws a fresh identity from the shared `NextClipID` counter. -/
theorem clipIdentity_iff_clip_counterexample :
    ¬ (∀ p : ProcessM, Reachable p → ∀ s ∈ p.allStates, ∀ t ∈ p.allStates,
        (s.clipID = t.clipID ↔ s.clip = t.clip)) := by
  intro hclaim
  have hreach : Reachable (applyStep (applyStep ProcessM.init
      (.newCanvas ⟨8, 8, .TopLeft⟩)) (.newCanvas ⟨8, 8, .TopLeft⟩)) :=
    Reachable.step _ (Reachable.step _ Reachable.init)
  have hm1 : (CanvasM.make ⟨8, 8, .TopLeft⟩ 0).1.state ∈
      (applyStep (applyStep ProcessM.init (.newCanvas ⟨8, 8, .TopLeft⟩))
        (.newCanvas ⟨8, 8, .TopLeft⟩)).allStates := by
    simp [ProcessM.allStates, applyStep, ProcessM.init, CanvasM.allStates]
  have hm2 : (CanvasM.make ⟨8, 8, .TopLeft⟩ 1).1.state ∈
      (applyStep (applyStep ProcessM.init (.newCanvas ⟨8, 8, .TopLeft⟩))
        (.newCanvas ⟨8, 8, .TopLeft⟩)).allStates := by
    simp only [ProcessM.allStates, applyStep, ProcessM.init, CanvasM.allStates,
      List.flatMap_append, List.flatMap_cons, List.flatMap_nil, List.nil_append,
      List.append_nil, List.mem_append, List.mem_cons, List.not_mem_nil, or_false]
    exact Or.inr (Or.inl rfl)
  have hiff := hclaim _ hreach _ hm1 _ hm2
  have hids : (CanvasM.make ⟨8, 8, .TopLeft⟩ 0).1.state.clipID =
      (CanvasM.make ⟨8, 8, .TopLeft⟩ 1).1.state.clipID := hiff.mpr rfl
  have h1 : (CanvasM.make ⟨8, 8, .TopLeft⟩ 0).1.state.clipID = 1 := by
    show 0 % clipIDPeriod + 1 = 1
    simp
  have h2 : (CanvasM.make ⟨8, 8, .TopLeft⟩ 1).1.state.clipID = 2 := by
    show 1 % clipIDPeriod + 1 = 2
    rw [Nat.mod_eq_of_lt (by norm_num [clipIDPeriod])]
  rw [h1, h2] at hids
  exact absurd hids (by norm_num)

/-- C2 (amended): only one direction of the claimed equivalence holds, and it
is the direction cache reuse relies on: in every reachable process whose
shared 32-bit identity counter has not wrapped around, any two live drawing
states with equal clip identity have bit-identical clip geometry
(equivalently, a clip-geometry change forces an identity change).  The
converse fails: identities advance on every clip call and at every canvas
construction, so distinct identities can tag identical geometry. -/
theorem equal_clipID_implies_equal_clip {p : ProcessM} (hp : Reachable p)
    (hnw : p.allocCount ≤ clipIDPeriod) :
    ∀ s ∈ p.allStates, ∀ t ∈ p.allStates, s.clipID = t.clipID → s.clip = t.clip :=
  (reachable_clip_invariant hp).2 hnw

/-- Witness for the amended C2: in the process that creates one canvas, saves,
and then mutates the matrix, the current state and the saved snapshot share a
clip identity, and the theorem yields equality of their clip geometry. -/
theorem equal_clipID_implies_equal_clip_witness :
    ((CanvasM.make ⟨8, 8, .TopLeft⟩ 0).1.save.setMatrix ⟨2, 0, 0, 0, 2, 0⟩).state.clip =
      (CanvasM.make ⟨8, 8, .TopLeft⟩ 0).1.state.clip := by
  have h := equal_clipID_implies_equal_clip
    (p := applyStep (applyStep (applyStep ProcessM.init (.newCanvas ⟨8, 8, .TopLeft⟩))
      (.canvasOp 0 .save)) (.canvasOp 0 (.setMatrix ⟨2, 0, 0, 0, 2, 0⟩)))
    (Reachable.step _ (Reachable.step _ (Reachable.step _ Reachable.init)))
    (by show (1 : ℕ) ≤ clipIDPeriod; norm_num [clipIDPeriod])
  exact h _ (by simp [ProcessM.allStates, applyStep, ProcessM.init, CanvasM.allStates,
      applyOp, CanvasM.save, CanvasM.setMatrix])
    _ (by simp [ProcessM.allStates, applyStep, ProcessM.init, CanvasM.allStates,
      applyOp, CanvasM.save, CanvasM.setMatrix])
    rfl

/-- C3: `clipPath` (and `clipRect`, which builds a one-rect path and forwards
to it) replaces the current clip with the intersection of the current clip
and the given shape transformed by the current matrix — the transform is
applied to the shape before the intersection — and tags the state with a
freshly allocated clip identity that differs from the identity of every
drawing state live in the process, even when the resulting clip geometry
equals the previous one (no hypothesis on the geometry is needed).  No other
state field changes: matrix, alpha and blend mode are untouched, the saved
stack is untouched, and no operation is forwarded to the draw context.  The
process as a whole only swaps in the updated canvas and advances the shared
allocation count. -/
theorem clipPath_replaces_clip_and_advances_identity {p : ProcessM} (hp : Reachable p)
    (hnw : p.allocCount + 1 ≤ clipIDPeriod) {i : ℕ} {c : CanvasM}
    (hc : p.canvases[i]? = some c) (path : PathM) :
    ((applyOp (c, p.allocCount) (.clipPath path)).1.state.clip =
      PathM.addPathIntersect (PathM.transformed c.state.matrix path) c.state.clip) ∧
    (applyOp (c, p.allocCount) (.clipPath path)).1.state.matrix = c.state.matrix ∧
    (applyOp (c, p.allocCount) (.clipPath path)).1.state.alpha = c.state.alpha ∧
    (applyOp (c, p.allocCount) (.clipPath path)).1.state.blendMode = c.state.blendMode ∧
    (applyOp (c, p.allocCount) (.clipPath path)).1.savedStateList = c.savedStateList ∧
    (applyOp (c, p.allocCount) (.clipPath path)).1.ops = c.ops ∧
    (∀ r, applyOp (c, p.allocCount) (.clipRect r) =
      applyOp (c, p.allocCount) (.clipPath (.addRect r .empty))) ∧
    applyStep p (.canvasOp i (.clipPath path)) =
      ⟨p.canvases.set i (applyOp (c, p.allocCount) (.clipPath path)).1, p.allocCount + 1⟩ ∧
    ∀ s ∈ p.allStates, (applyOp (c, p.allocCount) (.clipPath path)).1.state.clipID ≠ s.clipID := by
  refine ⟨rfl, rfl, rfl, rfl, rfl, rfl, fun r => rfl,
    by simp [applyStep, hc, applyOp, CanvasM.clipPath, NextClipID], ?_⟩
  intro s hs
  have hidval : (applyOp (c, p.allocCount) (.clipPath path)).1.state.clipID =
      p.allocCount + 1 := by
    show p.allocCount % clipIDPeriod + 1 = p.allocCount + 1
    rw [Nat.mod_eq_of_lt (Nat.lt_of_succ_le hnw)]
  have hbound := ((reachable_clip_invariant hp).1 s hs).2
  omega

/-- Witness for C3: clipping a 4×4 rect into a fresh canvas allocates an
identity different from the canvas's initial one. -/
theorem clipPath_replaces_clip_witness :
    (applyOp ((CanvasM.make ⟨8, 8, .TopLeft⟩ 0).1, 1)
        (.clipPath (.addRect ⟨0, 0, 4, 4⟩ .empty))).1.state.clipID ≠
      (CanvasM.make ⟨8, 8, .TopLeft⟩ 0).1.state.clipID := by
  have h := clipPath_replaces_clip_and_advances_identity
    (p := applyStep ProcessM.init (.newCanvas ⟨8, 8, .TopLeft⟩))
    (Reachable.step _ Reachable.init)
    (by show (1 : ℕ) + 1 ≤ clipIDPeriod; norm_num [clipIDPeriod])
    (i := 0) (c := (CanvasM.make ⟨8, 8, .TopLeft⟩ 0).1) rfl
    (.addRect ⟨0, 0, 4, 4⟩ .empty)
  exact h.2.2.2.2.2.2.2.2 _ (by simp [ProcessM.allStates, applyStep, ProcessM.init,
    CanvasM.allStates])

/-- C10: `clear(color)` leaves the drawing state exactly as it was — the
blend mode, which `clear` temporarily sets to `Src` around its internal
full-surface `drawRect`, is restored to its prior value, and the matrix,
alpha, clip path, clip identity and the saved-state stack are untouched. -/
theorem clear_restores_state (c : CanvasM) :
    (c.clear).state = c.state ∧ (c.clear).savedStateList = c.savedStateList :=
  clear_frame c

theorem mapRect_identity {r : RectQ} (h1 : r.left ≤ r.right) (h2 : r.top ≤ r.bottom) :
    MatrixM.identity.mapRect r = r := by
  unfold MatrixM.mapRect MatrixM.mapX MatrixM.mapY MatrixM.identity
  cases r
  simp_all [min_eq_left, max_eq_right]

theorem identity_rectStaysRect : MatrixM.identity.RectStaysRect := by
  unfold MatrixM.RectStaysRect MatrixM.identity
  norm_num

/-- C5 (amended): the draw-as-clear fast path is selected exactly when the
resolved paint carries no color and no coverage fragment processors, the
current matrix maps rects to rects, the blend mode permits it (`Src`, or
`Clear`, or any other mode only with an opaque color), the path is exactly a
rectangle whose device-space image is pixel-aligned within the tolerance,
and — in addition to what the claim lists — the current clip resolves to a
pixel-aligned scissor rectangle or imposes no restriction (the full-surface
case); a clip that is a non-pixel-aligned rectangle (analytic coverage) or
requires a rasterized mask rejects the fast path.  When selected through a
scissor, the emitted operation is a buffer clear over the scissor-intersected
device bounds, and no raster operation is emitted for the draw. -/
theorem drawAsClear_selection (pathAsRect : Option RectQ) (paint : GpuPaintM)
    (matrix : MatrixM) (blendMode : BlendMode) (clipAsRect : Option RectQ)
    (surface : SurfaceM) (writeSwizzle : ColorQ → ColorQ) :
    ((∃ res, drawAsClear pathAsRect paint matrix blendMode clipAsRect surface writeSwizzle =
        some res) ↔
      (paint.colorFragmentProcessors = [] ∧ paint.coverageFragmentProcessors = [] ∧
        matrix.RectStaysRect ∧
        (blendMode = .Src ∨ blendMode = .Clear ∨ paint.color.IsOpaque) ∧
        (∃ pRect, pathAsRect = some pRect ∧ IsPixelAligned (matrix.mapRect pRect)) ∧
        ((∃ sr, getClipRect clipAsRect surface = (some sr, true)) ∨
          (∃ er, getClipRect clipAsRect surface = (some er, false) ∧ er.IsEmpty)))) ∧
    (∀ pRect sr, pathAsRect = some pRect →
      getClipRect clipAsRect surface = (some sr, true) →
      paint.colorFragmentProcessors = [] → paint.coverageFragmentProcessors = [] →
      matrix.RectStaysRect →
      (blendMode = .Src ∨ blendMode = .Clear ∨ paint.color.IsOpaque) →
      IsPixelAligned (matrix.mapRect pRect) →
      drawAsClear pathAsRect paint matrix blendMode clipAsRect surface writeSwizzle =
        some (writeSwizzle (if blendMode = BlendMode.Clear then ColorQ.transparent
            else paint.color),
          sr.intersect (FlipYIfNeeded (matrix.mapRect pRect) surface))) := by
  constructor
  · constructor
    · rintro ⟨res, hres⟩
      unfold drawAsClear at hres
      by_cases h1 : paint.colorFragmentProcessors = [] ∧ paint.coverageFragmentProcessors = [] ∧
          matrix.RectStaysRect
      · rw [if_neg (not_not_intro h1)] at hres
        by_cases h2 : blendMode ≠ BlendMode.Clear ∧ blendMode ≠ BlendMode.Src ∧
            ¬paint.color.IsOpaque
        · rw [if_pos h2] at hres
          cases hres
        · rw [if_neg h2] at hres
          have hblend : blendMode = .Src ∨ blendMode = .Clear ∨ paint.color.IsOpaque := by
            tauto
          rcases hpath : pathAsRect with _ | pRect
          · rw [hpath] at hres
            cases hres
          · rw [hpath] at hres
            simp only at hres
            by_cases h3 : IsPixelAligned (matrix.mapRect pRect)
            · rw [if_neg (not_not_intro h3)] at hres
              refine ⟨h1.1, h1.2.1, h1.2.2, hblend, ⟨pRect, rfl, h3⟩, ?_⟩
              rcases hclip : getClipRect clipAsRect surface with ⟨orect, usc⟩
              rw [hclip] at hres
              rcases orect with _ | rect
              · cases hres
              · rcases usc with _ | _
                · by_cases h4 : rect.IsEmpty
                  · exact Or.inr ⟨rect, rfl, h4⟩
                  · simp only [Bool.false_eq_true, if_false, if_neg h4] at hres
                    cases hres
                · exact Or.inl ⟨rect, rfl⟩
            · rw [if_pos h3] at hres
              cases hres
      · rw [if_pos h1] at hres
        cases hres
    · rintro ⟨hcf, hvf, hrsr, hblend, ⟨pRect, rfl, halign⟩, hclip⟩
      unfold drawAsClear
      rw [if_neg (not_not_intro ⟨hcf, hvf, hrsr⟩)]
      rw [if_neg (show ¬(blendMode ≠ BlendMode.Clear ∧ blendMode ≠ BlendMode.Src ∧
        ¬paint.color.IsOpaque) by tauto)]
      simp only
      rw [if_neg (not_not_intro halign)]
      rcases hclip with ⟨sr, hsr⟩ | ⟨er, her, hemp⟩
      · rw [hsr]
        exact ⟨_, rfl⟩
      · rw [her]
        simp only [Bool.false_eq_true, if_false]
        rw [if_pos hemp]
        exact ⟨_, rfl⟩
  · intro pRect sr hpath hsciss hcf hvf hrsr hblend halign
    subst hpath
    unfold drawAsClear
    rw [if_neg (not_not_intro ⟨hcf, hvf, hrsr⟩)]
    rw [if_neg (show ¬(blendMode ≠ BlendMode.Clear ∧ blendMode ≠ BlendMode.Src ∧
      ¬paint.color.IsOpaque) by tauto)]
    simp only
    rw [if_neg (not_not_intro halign), hsciss]
    rfl

/-- Witness for the amended C5: filling the 4×4 rect under the identity
matrix with `Src` blending, with an 8×8 pixel-aligned scissor clip on a 16×16
surface, selects the fast path and clears the scissor-intersected region. -/
theorem drawAsClear_selection_witness :
    drawAsClear (some ⟨0, 0, 4, 4⟩) ⟨⟨0, 0, 0, 1⟩, [], []⟩ MatrixM.identity .Src
        (some ⟨0, 0, 8, 8⟩) ⟨16, 16, .TopLeft⟩ id =
      some (id (if (BlendMode.Src = BlendMode.Clear) then ColorQ.transparent
          else (⟨0, 0, 0, 1⟩ : ColorQ)),
        RectQ.intersect ⟨0, 0, 8, 8⟩ (FlipYIfNeeded
          (MatrixM.identity.mapRect ⟨0, 0, 4, 4⟩) ⟨16, 16, .TopLeft⟩)) := by
  have hr0 : RectQ.roundScalar 0 = 0 := by simpa using roundScalar_natCast 0
  have hr4 : RectQ.roundScalar 4 = 4 := by simpa using roundScalar_natCast 4
  have hr8 : RectQ.roundScalar 8 = 8 := by simpa using roundScalar_natCast 8
  have halign4 : IsPixelAligned (⟨0, 0, 4, 4⟩ : RectQ) := by
    unfold IsPixelAligned boundsTolerance
    norm_num [hr0, hr4]
  have halign8 : IsPixelAligned (⟨0, 0, 8, 8⟩ : RectQ) := by
    unfold IsPixelAligned boundsTolerance
    norm_num [hr0, hr8]
  have hclip : getClipRect (some ⟨0, 0, 8, 8⟩) ⟨16, 16, .TopLeft⟩ = (some ⟨0, 0, 8, 8⟩, true) := by
    unfold getClipRect FlipYIfNeeded
    simp only
    rw [if_pos halign8]
    have hround : RectQ.round (⟨0, 0, 8, 8⟩ : RectQ) = ⟨0, 0, 8, 8⟩ := by
      unfold RectQ.round
      rw [hr0, hr8]
    rw [if_pos]
    · rw [hround]
    · rw [hround]
      unfold RectQ.makeWH
      intro h
      injection h with h1 h2 h3 h4
      norm_num at h3
  exact (drawAsClear_selection (some ⟨0, 0, 4, 4⟩) ⟨⟨0, 0, 0, 1⟩, [], []⟩ MatrixM.identity .Src
      (some ⟨0, 0, 8, 8⟩) ⟨16, 16, .TopLeft⟩ id).2 ⟨0, 0, 4, 4⟩ ⟨0, 0, 8, 8⟩ rfl hclip rfl rfl
    identity_rectStaysRect (Or.inl rfl) (by rw [mapRect_identity (by norm_num) (by norm_num)]; exact halign4)

/-- C5 (counterexample): the claim's "exactly when" omits a necessary clip
condition.  With no fragment processors, the identity matrix, `Src` blending
and the pixel-aligned 8×8 rect path — all of the claim's conditions — but a
clip that is a non-pixel-aligned rectangle (15.5×15.5 on a 16×16 surface),
`drawAsClear` rejects the fast path, because the clip resolves to analytic
coverage rather than to a scissor. -/
theorem drawAsClear_exactly_when_counterexample :
    ¬ (∀ (pathAsRect : Option RectQ) (paint : GpuPaintM) (matrix : MatrixM)
        (blendMode : BlendMode) (clipAsRect : Option RectQ) (surface : SurfaceM)
        (writeSwizzle : ColorQ → ColorQ),
        ((∃ res, drawAsClear pathAsRect paint matrix blendMode clipAsRect surface
            writeSwizzle = some res) ↔
          (paint.colorFragmentProcessors = [] ∧ paint.coverageFragmentProcessors = [] ∧
            matrix.RectStaysRect ∧
            (blendMode = .Src ∨ blendMode = .Clear ∨ paint.color.IsOpaque) ∧
            (∃ pRect, pathAsRect = some pRect ∧ IsPixelAligned (matrix.mapRect pRect))))) := by
  intro hclaim
  have hr0 : RectQ.roundScalar 0 = 0 := by simpa using roundScalar_natCast 0
  have hr8 : RectQ.roundScalar 8 = 8 := by simpa using roundScalar_natCast 8
  have hr155 : RectQ.roundScalar (31/2) = 16 := by
    have := roundScalar_eq_of_nonneg (x := 31/2) (n := 16) (by norm_num) (by norm_num)
      (by norm_num)
    simpa using this
  have halign8 : IsPixelAligned (⟨0, 0, 8, 8⟩ : RectQ) := by
    unfold IsPixelAligned boundsTolerance
    norm_num [hr0, hr8]
  have hnotalign : ¬IsPixelAligned (⟨0, 0, 31/2, 31/2⟩ : RectQ) := by
    unfold IsPixelAligned boundsTolerance
    intro h
    have h3 := h.2.2.1
    rw [hr155, show (16 : ℚ) - 31/2 = 1/2 by norm_num,
      abs_of_nonneg (by norm_num : (0 : ℚ) ≤ 1/2)] at h3
    norm_num at h3
  have hclip : getClipRect (some ⟨0, 0, 31/2, 31/2⟩) ⟨16, 16, .TopLeft⟩ =
      (some ⟨0, 0, 31/2, 31/2⟩, false) := by
    unfold getClipRect FlipYIfNeeded
    simp only
    rw [if_neg hnotalign]
  have hnone : drawAsClear (some ⟨0, 0, 8, 8⟩) ⟨⟨0, 0, 0, 1⟩, [], []⟩ MatrixM.identity .Src
      (some ⟨0, 0, 31/2, 31/2⟩) ⟨16, 16, .TopLeft⟩ id = none := by
    unfold drawAsClear
    rw [if_neg (not_not_intro ⟨rfl, rfl, identity_rectStaysRect⟩)]
    rw [if_neg (show ¬(BlendMode.Src ≠ BlendMode.Clear ∧ BlendMode.Src ≠ BlendMode.Src ∧
      ¬(⟨0, 0, 0, 1⟩ : ColorQ).IsOpaque) by tauto)]
    simp only
    rw [if_neg (not_not_intro (by rw [mapRect_identity (by norm_num) (by norm_num)]; exact halign8)), hclip]
    simp only [Bool.false_eq_true, if_false]
    rw [if_neg (show ¬(⟨0, 0, 31/2, 31/2⟩ : RectQ).IsEmpty by
      unfold RectQ.IsEmpty; norm_num)]
  have h := (hclaim (some ⟨0, 0, 8, 8⟩) ⟨⟨0, 0, 0, 1⟩, [], []⟩ MatrixM.identity .Src
    (some ⟨0, 0, 31/2, 31/2⟩) ⟨16, 16, .TopLeft⟩ id).mpr
    ⟨rfl, rfl, identity_rectStaysRect, Or.inl rfl,
      ⟨0, 0, 8, 8⟩, rfl, by rw [mapRect_identity (by norm_num) (by norm_num)]; exact halign8⟩
  obtain ⟨res, hres⟩ := h
  rw [hnone] at hres
  cases hres

namespace ResourceCacheM

theorem lookup_cons_ite {β : Type} (a : ℕ) (b : ℕ × β) (l : List (ℕ × β)) :
    (b :: l).lookup a = if a = b.1 then some b.2 else l.lookup a := by
  rcases b with ⟨k, v⟩
  rw [List.lookup_cons]
  rcases h : a == k with _ | _
  · simp only [h]
    rw [if_neg (by simpa using h)]
  · simp only [h]
    rw [if_pos (by simpa using h)]

theorem lookup_mem {β : Type} : ∀ {l : List (ℕ × β)} {k : ℕ} {v : β},
    l.lookup k = some v → (k, v) ∈ l := by
  intro l
  induction l with
  | nil => intro k v h; cases h
  | cons hd tl ih =>
    intro k v h
    rw [lookup_cons_ite] at h
    by_cases hk : k = hd.1
    · rw [if_pos hk] at h
      injection h with h
      rw [hk, ← h]
      exact List.mem_cons_self _ _
    · rw [if_neg hk] at h
      exact List.mem_cons_of_mem hd (ih h)

theorem find?_min_of_pairwise (f : ℕ → ℕ) {p : ℕ → Bool} :
    ∀ {l : List ℕ}, l.Pairwise (fun a b => f a ≤ f b) → ∀ {x : ℕ}, l.find? p = some x →
      ∀ y ∈ l, p y = true → f x ≤ f y := by
  intro l
  induction l with
  | nil => intro _ x h; cases h
  | cons hd tl ih =>
    intro hpw x hfind y hy hpy
    rw [List.find?_cons] at hfind
    rcases hp : p hd with _ | _
    · rw [hp] at hfind
      have hfind2 : tl.find? p = some x := hfind
      cases hy with
      | head => rw [hpy] at hp; cases hp
      | tail _ hy => exact ih (List.Pairwise.of_cons hpw) hfind2 y hy hpy
    · rw [hp] at hfind
      have hfind2 : some hd = some x := hfind
      injection hfind2 with hx
      subst hx
      cases hy with
      | head => exact le_refl _
      | tail _ hy => exact (List.pairwise_cons.mp hpw).1 y hy

theorem lookup_map_update {β : Type} (rid : ℕ) (f : β → β) : ∀ (l : List (ℕ × β)),
    (l.map (fun pr => if pr.1 = rid then (pr.1, f pr.2) else pr)).lookup rid =
      (l.lookup rid).map f := by
  intro l
  induction l with
  | nil => rfl
  | cons hd tl ih =>
    simp only [List.map_cons]
    by_cases hk : hd.1 = rid
    · rw [if_pos hk, lookup_cons_ite, lookup_cons_ite, if_pos hk.symm, if_pos hk.symm]
      rfl
    · rw [if_neg hk, lookup_cons_ite, lookup_cons_ite,
        if_neg (fun h => hk h.symm), if_neg (fun h => hk h.symm)]
      exact ih

theorem lookup_map_update_other {β : Type} (rid rid2 : ℕ) (h : rid2 ≠ rid) (f : β → β) :
    ∀ (l : List (ℕ × β)),
    (l.map (fun pr => if pr.1 = rid then (pr.1, f pr.2) else pr)).lookup rid2 =
      l.lookup rid2 := by
  intro l
  induction l with
  | nil => rfl
  | cons hd tl ih =>
    simp only [List.map_cons]
    by_cases hk : hd.1 = rid
    · have hne : rid2 ≠ hd.1 := fun hcontra => h (hcontra.trans hk)
      rw [if_pos hk, lookup_cons_ite, lookup_cons_ite, if_neg hne, if_neg hne]
      exact ih
    · by_cases hk2 : rid2 = hd.1
      · rw [if_neg hk, lookup_cons_ite, lookup_cons_ite, if_pos hk2, if_pos hk2]
      · rw [if_neg hk, lookup_cons_ite, lookup_cons_ite, if_neg hk2, if_neg hk2]
        exact ih

theorem getAttrs_updateAttrs_self (c : ResourceCacheM) (rid : ℕ) (f : ResAttrs → ResAttrs) :
    (c.updateAttrs rid f).getAttrs rid = (c.getAttrs rid).map f := by
  unfold updateAttrs getAttrs
  exact lookup_map_update rid f c.attrs

theorem getAttrs_updateAttrs_other (c : ResourceCacheM) (rid rid2 : ℕ)
    (f : ResAttrs → ResAttrs) (h : rid2 ≠ rid) :
    (c.updateAttrs rid f).getAttrs rid2 = c.getAttrs rid2 := by
  unfold updateAttrs getAttrs
  exact lookup_map_update_other rid rid2 h f c.attrs

/-- C6 (amended): `findRecyclableResource(key)` returns the **first resource
in insertion (`addResource`) order** — not the most-recently-used one — among
the resources carrying that recycle key that are purgeable and free of
external references; it promotes that resource to the non-purgeable list and
hands out a strong handle, so an immediately repeated call never returns the
same resource object. -/
theorem findRecyclable_first_in_insertion_order {c : ResourceCacheM} {key rid : ℕ}
    {c' : ResourceCacheM} (hwf : WF c)
    (hfind : c.findRecyclableResource key = (some rid, c')) :
    c.isPurgeable rid = true ∧ c.hasExternalReferences rid = false ∧
    c.recycleKeyOf rid = some key ∧
    (∀ bucket, c.recycleKeyMap.lookup key = some bucket →
      ∀ rid2 ∈ bucket, (c.isPurgeable rid2 && !c.hasExternalReferences rid2) = true →
        c.addedAtOf rid ≤ c.addedAtOf rid2) ∧
    rid ∈ c'.nonpurgeableResources ∧ rid ∉ c'.purgeableResources ∧
    c'.handleRefsOf rid = c.handleRefsOf rid + 1 ∧
    (c'.findRecyclableResource key).1 ≠ some rid := by
  obtain ⟨hnp, hp, hdisj, hkeys, hdom, hattr, hpref, hmem, htot, hpb, hmap, hsort⟩ := hwf
  unfold findRecyclableResource at hfind
  rcases hlk : c.recycleKeyMap.lookup key with _ | bucket
  · simp only [hlk] at hfind
    exact absurd (congrArg Prod.fst hfind) (by simp)
  · simp only [hlk] at hfind
    rcases hfd : bucket.find? (fun r => c.isPurgeable r && !c.hasExternalReferences r)
      with _ | ridf
    · simp only [hfd] at hfind
      exact absurd (congrArg Prod.fst hfind) (by simp)
    · simp only [hfd] at hfind
      rw [Prod.ext_iff] at hfind
      obtain ⟨h1, h2⟩ := hfind
      rw [Option.some.injEq] at h1
      rw [h1] at hfd h2
      subst h2
      have hpred := List.find?_some hfd
      rw [Bool.and_eq_true, Bool.not_eq_true'] at hpred
      have hbmem : rid ∈ bucket := List.mem_of_find?_eq_some hfd
      have hen := hmap (key, bucket) (lookup_mem hlk) rid hbmem
      have hkey : c.recycleKeyOf rid = some key := hen.1
      -- the promoted resource sits in the non-purgeable list afterwards
      have hinlists : rid ∈ c.nonpurgeableResources ∨ rid ∈ c.purgeableResources := by
        rcases hsome : c.getAttrs rid with _ | a
        · rw [hsome] at hen; cases hen.2
        · exact hdom (rid, a) (lookup_mem hsome)
      have hrefRes :
          (c.refResource rid).nonpurgeableResources =
            (if rid ∈ c.purgeableResources then rid :: c.nonpurgeableResources
              else c.nonpurgeableResources) ∧
          (c.refResource rid).purgeableResources =
            (if rid ∈ c.purgeableResources then c.purgeableResources.erase rid
              else c.purgeableResources) := by
        unfold refResource updateAttrs
        by_cases hcase : rid ∈ c.purgeableResources
        · rw [if_pos hcase, if_pos hcase, if_pos hcase]
          exact ⟨rfl, rfl⟩
        · rw [if_neg hcase, if_neg hcase, if_neg hcase]
          exact ⟨rfl, rfl⟩
      refine ⟨hpred.1, hpred.2, hkey, ?_, ?_, ?_, ?_, ?_⟩
      · intro bucket2 hlk2 rid2 hmem2 hpred2
        injection hlk2 with hlk2
        subst hlk2
        exact find?_min_of_pairwise c.addedAtOf (hsort (key, bucket) (lookup_mem hlk)) hfd
          rid2 hmem2 hpred2
      · rw [hrefRes.1]
        by_cases hcase : rid ∈ c.purgeableResources
        · rw [if_pos hcase]; exact List.mem_cons_self rid _
        · rw [if_neg hcase]
          exact hinlists.resolve_right hcase
      · rw [hrefRes.2]
        by_cases hcase : rid ∈ c.purgeableResources
        · rw [if_pos hcase]
          intro hcontra
          exact ((List.Nodup.mem_erase_iff hp).mp hcontra).1 rfl
        · rw [if_neg hcase]; exact hcase
      · show ((((c.refResource rid).getAttrs rid).map ResAttrs.externalHandleRefs).getD 0) = _
        unfold refResource
        rw [getAttrs_updateAttrs_self]
        have hattrs_eq :
            (if rid ∈ c.purgeableResources then
              { c with
                purgeableResources := c.purgeableResources.erase rid
                purgeableBytes := c.purgeableBytes - c.memOf rid
                nonpurgeableResources := rid :: c.nonpurgeableResources }
              else c).getAttrs rid = c.getAttrs rid := by
          by_cases hcase : rid ∈ c.purgeableResources
          · rw [if_pos hcase]; rfl
          · rw [if_neg hcase]
        rw [hattrs_eq]
        rcases hsome : c.getAttrs rid with _ | a
        · rw [hsome] at hen; cases hen.2
        · unfold handleRefsOf
          rw [hsome]
          rfl
      · -- the second call cannot return the same resource
        intro hsecond
        unfold findRecyclableResource at hsecond
        have hmap_eq : (c.refResource rid).recycleKeyMap = c.recycleKeyMap := by
          unfold refResource updateAttrs
          by_cases hcase : rid ∈ c.purgeableResources
          · rw [if_pos hcase]
          · rw [if_neg hcase]
        simp only [hmap_eq, hlk] at hsecond
        rcases hfd2 : bucket.find? (fun r => (c.refResource rid).isPurgeable r &&
            !(c.refResource rid).hasExternalReferences r) with _ | rid2
        · simp only [hfd2] at hsecond
          exact Option.noConfusion hsecond
        · simp only [hfd2] at hsecond
          have hr2 : rid2 = rid := by
            simpa using hsecond
          have hpred2 := List.find?_some hfd2
          rw [hr2] at hpred2
          rw [Bool.and_eq_true] at hpred2
          have hpurge2 := hpred2.1
          unfold isPurgeable at hpurge2
          rw [Bool.and_eq_true, decide_eq_true_eq] at hpurge2
          have hbump : (c.refResource rid).handleRefsOf rid = c.handleRefsOf rid + 1 := by
            show ((((c.refResource rid).getAttrs rid).map ResAttrs.externalHandleRefs).getD 0) = _
            unfold refResource
            rw [getAttrs_updateAttrs_self]
            have hattrs_eq :
                (if rid ∈ c.purgeableResources then
                  { c with
                    purgeableResources := c.purgeableResources.erase rid
                    purgeableBytes := c.purgeableBytes - c.memOf rid
                    nonpurgeableResources := rid :: c.nonpurgeableResources }
                  else c).getAttrs rid = c.getAttrs rid := by
              by_cases hcase : rid ∈ c.purgeableResources
              · rw [if_pos hcase]; rfl
              · rw [if_neg hcase]
            rw [hattrs_eq]
            rcases hsome : c.getAttrs rid with _ | a
            · rw [hsome] at hen; cases hen.2
            · unfold handleRefsOf
              rw [hsome]
              rfl
          rw [hbump] at hpurge2
          exact Nat.succ_ne_zero _ hpurge2.1

theorem WF.coreInv {c : ResourceCacheM} (h : WF c) : CoreInv c := by
  obtain ⟨h1, h2, h3, _, _, h6, _, h8, h9, h10, _, _⟩ := h
  exact ⟨h1, h2, h3, h6, h8, h9, h10⟩

theorem lookup_filter_ne {β : Type} (r rid : ℕ) (h : rid ≠ r) : ∀ (l : List (ℕ × β)),
    (l.filter (fun pr => pr.1 ≠ r)).lookup rid = l.lookup rid := by
  intro l
  induction l with
  | nil => rfl
  | cons hd tl ih =>
    by_cases hk : hd.1 = r
    · rw [List.filter_cons_of_neg (by simpa using hk), lookup_cons_ite,
        if_neg (fun hcontra => h (hcontra.trans hk))]
      exact ih
    · rw [List.filter_cons_of_pos (by simpa using hk), lookup_cons_ite, lookup_cons_ite]
      by_cases hk2 : rid = hd.1
      · rw [if_pos hk2, if_pos hk2]
      · rw [if_neg hk2, if_neg hk2]
        exact ih

theorem getAttrs_removeResource_other (s : ResourceCacheM) (r rid : ℕ) (h : rid ≠ r) :
    (s.removeResource r).getAttrs rid = s.getAttrs rid := by
  unfold removeResource
  rcases hk : s.recycleKeyOf r with _ | k <;>
    simp only [hk] <;>
    exact lookup_filter_ne r rid h s.attrs

theorem getAttrs_processOne_other (s : ResourceCacheM) (r rid : ℕ) (h : rid ≠ r) :
    (processOne s r).getAttrs rid = s.getAttrs rid := by
  unfold processOne
  have hscr : ({ s with nonpurgeableResources := s.nonpurgeableResources.erase r } :
      ResourceCacheM).recycleKeyOf r = s.recycleKeyOf r := rfl
  rcases hk : s.recycleKeyOf r with _ | k
  · simp only [hscr, hk]
    exact getAttrs_removeResource_other _ r rid h
  · simp only [hscr, hk]
    exact getAttrs_updateAttrs_other _ r rid _ h

theorem getAttrs_purgeOne_other (s : ResourceCacheM) (r rid : ℕ) (h : rid ≠ r) :
    (purgeOne s r).getAttrs rid = s.getAttrs rid := by
  unfold purgeOne
  exact getAttrs_removeResource_other _ r rid h

theorem foldl_processOne_getAttrs : ∀ (rs : List ℕ) (s : ResourceCacheM) (rid : ℕ),
    rid ∉ rs → (rs.foldl processOne s).getAttrs rid = s.getAttrs rid := by
  intro rs
  induction rs with
  | nil => intro s rid _; rfl
  | cons r rs ih =>
    intro s rid hmem
    rw [List.foldl_cons]
    rw [ih (processOne s r) rid (fun hc => hmem (List.mem_cons_of_mem r hc))]
    exact getAttrs_processOne_other s r rid (fun hc => hmem (hc ▸ List.mem_cons_self r rs))

theorem foldl_purgeOne_getAttrs : ∀ (rs : List ℕ) (s : ResourceCacheM) (rid : ℕ),
    rid ∉ rs → (rs.foldl purgeOne s).getAttrs rid = s.getAttrs rid := by
  intro rs
  induction rs with
  | nil => intro s rid _; rfl
  | cons r rs ih =>
    intro s rid hmem
    rw [List.foldl_cons]
    rw [ih (purgeOne s r) rid (fun hc => hmem (List.mem_cons_of_mem r hc))]
    exact getAttrs_purgeOne_other s r rid (fun hc => hmem (hc ▸ List.mem_cons_self r rs))

theorem removeResource_structure (s : ResourceCacheM) (r : ℕ) :
    (s.removeResource r).nonpurgeableResources = s.nonpurgeableResources ∧
    (s.removeResource r).purgeableResources = s.purgeableResources ∧
    (s.removeResource r).released = r :: s.released ∧
    (s.removeResource r).totalBytes = s.totalBytes - s.memOf r ∧
    (s.removeResource r).purgeableBytes = s.purgeableBytes ∧
    (s.removeResource r).attrs = s.attrs.filter (fun pr => pr.1 ≠ r) := by
  unfold removeResource
  rcases hk : s.recycleKeyOf r with _ | k <;>
    exact ⟨rfl, rfl, rfl, rfl, rfl, rfl⟩

theorem processOne_np (s : ResourceCacheM) (r : ℕ) :
    (processOne s r).nonpurgeableResources = s.nonpurgeableResources.erase r := by
  unfold processOne
  have hscr : ({ s with nonpurgeableResources := s.nonpurgeableResources.erase r } :
      ResourceCacheM).recycleKeyOf r = s.recycleKeyOf r := rfl
  rcases hk : s.recycleKeyOf r with _ | k
  · simp only [hscr, hk]
    exact (removeResource_structure _ r).1
  · simp only [hscr, hk]
    rfl

theorem purgeOne_structure (s : ResourceCacheM) (r : ℕ) :
    (purgeOne s r).nonpurgeableResources = s.nonpurgeableResources ∧
    (purgeOne s r).purgeableResources = s.purgeableResources.erase r ∧
    (purgeOne s r).released = r :: s.released := by
  unfold purgeOne
  exact ⟨(removeResource_structure _ r).1, (removeResource_structure _ r).2.1,
    (removeResource_structure _ r).2.2.1⟩

theorem foldl_processOne_np : ∀ (rs : List ℕ) (s : ResourceCacheM),
    (rs.foldl processOne s).nonpurgeableResources =
      rs.foldl (fun acc r => acc.erase r) s.nonpurgeableResources := by
  intro rs
  induction rs with
  | nil => intro s; rfl
  | cons r rs ih =>
    intro s
    rw [List.foldl_cons, List.foldl_cons, ih (processOne s r), processOne_np]

theorem foldl_purgeOne_structure : ∀ (rs : List ℕ) (s : ResourceCacheM),
    (rs.foldl purgeOne s).nonpurgeableResources = s.nonpurgeableResources ∧
    (rs.foldl purgeOne s).purgeableResources =
      rs.foldl (fun acc r => acc.erase r) s.purgeableResources ∧
    (rs.foldl purgeOne s).released = rs.reverse ++ s.released := by
  intro rs
  induction rs with
  | nil => intro s; exact ⟨rfl, rfl, rfl⟩
  | cons r rs ih =>
    intro s
    obtain ⟨hs1, hs2, hs3⟩ := purgeOne_structure s r
    obtain ⟨h1, h2, h3⟩ := ih (purgeOne s r)
    rw [List.foldl_cons, List.foldl_cons]
    refine ⟨h1.trans hs1, h2.trans (by rw [hs2]), ?_⟩
    rw [h3, hs3, List.reverse_cons, List.append_assoc]
    rfl

theorem memOf_eq_of_getAttrs_eq {c1 c2 : ResourceCacheM} (rid : ℕ)
    (h : c1.getAttrs rid = c2.getAttrs rid) : c1.memOf rid = c2.memOf rid := by
  unfold memOf
  rw [h]

theorem sum_map_perm {l1 l2 : List ℕ} (f : ℕ → ℕ) (h : List.Perm l1 l2) :
    (l1.map f).sum = (l2.map f).sum := (h.map f).sum_eq

theorem memOf_eq_of_getAttrs_map {c1 c2 : ResourceCacheM} (rid : ℕ)
    (f : ResAttrs → ResAttrs) (hf : ∀ a, (f a).memoryUsage = a.memoryUsage)
    (h : c1.getAttrs rid = (c2.getAttrs rid).map f) : c1.memOf rid = c2.memOf rid := by
  unfold memOf
  rw [h]
  rcases c2.getAttrs rid with _ | a
  · rfl
  · simp [hf]

theorem processOne_keyed (s : ResourceCacheM) (r k : ℕ) (hk : s.recycleKeyOf r = some k) :
    processOne s r =
      ({ s with
        nonpurgeableResources := s.nonpurgeableResources.erase r
        purgeableResources := r :: s.purgeableResources
        purgeableBytes := s.purgeableBytes + s.memOf r } : ResourceCacheM).updateAttrs r
        (fun a => { a with lastUsedTime := s.now }) := by
  unfold processOne
  simp only [show ({ s with nonpurgeableResources := s.nonpurgeableResources.erase r } :
    ResourceCacheM).recycleKeyOf r = s.recycleKeyOf r from rfl, hk]
  rfl

theorem processOne_unkeyed (s : ResourceCacheM) (r : ℕ) (hk : s.recycleKeyOf r = none) :
    processOne s r =
      ({ s with nonpurgeableResources := s.nonpurgeableResources.erase r } :
        ResourceCacheM).removeResource r := by
  unfold processOne
  simp only [show ({ s with nonpurgeableResources := s.nonpurgeableResources.erase r } :
    ResourceCacheM).recycleKeyOf r = s.recycleKeyOf r from rfl, hk]

theorem processOne_inv {s : ResourceCacheM} {r : ℕ} (hinv : CoreInv s)
    (hr : r ∈ s.nonpurgeableResources) : CoreInv (processOne s r) := by
  obtain ⟨hnp, hp, hdisj, hattr, hmem, htot, hpb⟩ := hinv
  have hrP : r ∉ s.purgeableResources := hdisj r hr
  have hpermNP : List.Perm s.nonpurgeableResources (r :: s.nonpurgeableResources.erase r) :=
    List.perm_cons_erase hr
  rcases hk : s.recycleKeyOf r with _ | k
  · -- no recycle key: the resource is destroyed immediately
    rw [processOne_unkeyed s r hk]
    obtain ⟨e1, e2, _, e4, e5, e6⟩ := removeResource_structure
      ({ s with nonpurgeableResources := s.nonpurgeableResources.erase r } :
        ResourceCacheM) r
    have hga : ∀ x, x ≠ r →
        (({ s with nonpurgeableResources := s.nonpurgeableResources.erase r } :
          ResourceCacheM).removeResource r).getAttrs x = s.getAttrs x := by
      intro x hx
      exact getAttrs_removeResource_other _ r x hx
    have hne : ∀ x ∈ s.nonpurgeableResources.erase r ++ s.purgeableResources, x ≠ r := by
      intro x hx
      rcases List.mem_append.mp hx with hx | hx
      · exact ((hnp.mem_erase_iff).mp hx).1
      · intro hcontra
        exact hrP (hcontra ▸ hx)
    refine ⟨?_, ?_, ?_, ?_, ?_, ?_, ?_⟩
    · rw [e1]; exact hnp.erase r
    · rw [e2]; exact hp
    · rw [e1, e2]
      intro x hx
      exact hdisj x (List.erase_subset r s.nonpurgeableResources hx)
    · rw [e1, e2]
      intro x hx
      rw [hga x (hne x hx)]
      refine hattr x ?_
      rcases List.mem_append.mp hx with hx | hx
      · exact List.mem_append_left _ (List.erase_subset r _ hx)
      · exact List.mem_append_right _ hx
    · rw [e6]
      intro pr hpr
      exact hmem pr (List.mem_of_mem_filter hpr)
    · have hT4 : (({ s with nonpurgeableResources := s.nonpurgeableResources.erase r } :
          ResourceCacheM).removeResource r).totalBytes = s.totalBytes - s.memOf r :=
        (removeResource_structure _ r).2.2.2.1
      rw [hT4, e1, e2]
      have hmape : ∀ x ∈ s.nonpurgeableResources.erase r ++ s.purgeableResources,
          (({ s with nonpurgeableResources := s.nonpurgeableResources.erase r } :
            ResourceCacheM).removeResource r).memOf x = s.memOf x := by
        intro x hx
        exact memOf_eq_of_getAttrs_eq x (hga x (hne x hx))
      rw [List.map_congr_left hmape]
      have hsplit : s.totalBytes = s.memOf r +
          ((s.nonpurgeableResources.erase r ++ s.purgeableResources).map s.memOf).sum := by
        rw [htot]
        have hperm : List.Perm (s.nonpurgeableResources ++ s.purgeableResources)
            (r :: (s.nonpurgeableResources.erase r ++ s.purgeableResources)) :=
          hpermNP.append_right s.purgeableResources
        rw [sum_map_perm s.memOf hperm]
        rfl
      omega
    · have hPB4 : (({ s with nonpurgeableResources := s.nonpurgeableResources.erase r } :
          ResourceCacheM).removeResource r).purgeableBytes = s.purgeableBytes :=
        (removeResource_structure _ r).2.2.2.2.1
      rw [hPB4, e2]
      have hmp : ∀ x ∈ s.purgeableResources,
          (({ s with nonpurgeableResources := s.nonpurgeableResources.erase r } :
            ResourceCacheM).removeResource r).memOf x = s.memOf x := by
        intro x hx
        refine memOf_eq_of_getAttrs_eq x (hga x ?_)
        intro hcontra
        exact hrP (hcontra ▸ hx)
      rw [List.map_congr_left hmp]
      exact hpb
  · -- keyed: the resource moves to the purgeable list
    rw [processOne_keyed s r k hk]
    have hga_self :
        (({ s with
          nonpurgeableResources := s.nonpurgeableResources.erase r
          purgeableResources := r :: s.purgeableResources
          purgeableBytes := s.purgeableBytes + s.memOf r } : ResourceCacheM).updateAttrs r
          (fun a => { a with lastUsedTime := s.now })).getAttrs r =
        (s.getAttrs r).map (fun a => { a with lastUsedTime := s.now }) :=
      getAttrs_updateAttrs_self _ r _
    have hga_other : ∀ x, x ≠ r →
        (({ s with
          nonpurgeableResources := s.nonpurgeableResources.erase r
          purgeableResources := r :: s.purgeableResources
          purgeableBytes := s.purgeableBytes + s.memOf r } : ResourceCacheM).updateAttrs r
          (fun a => { a with lastUsedTime := s.now })).getAttrs x = s.getAttrs x := by
      intro x hx
      exact getAttrs_updateAttrs_other _ r x _ hx
    have hmape : ∀ x,
        (({ s with
          nonpurgeableResources := s.nonpurgeableResources.erase r
          purgeableResources := r :: s.purgeableResources
          purgeableBytes := s.purgeableBytes + s.memOf r } : ResourceCacheM).updateAttrs r
          (fun a => { a with lastUsedTime := s.now })).memOf x = s.memOf x := by
      intro x
      by_cases hx : x = r
      · subst hx
        exact memOf_eq_of_getAttrs_map x (fun a => { a with lastUsedTime := s.now })
          (fun a => rfl) hga_self
      · exact memOf_eq_of_getAttrs_eq x (hga_other x hx)
    refine ⟨?_, ?_, ?_, ?_, ?_, ?_, ?_⟩
    · exact hnp.erase r
    · exact List.nodup_cons.mpr ⟨hrP, hp⟩
    · intro x hx
      have hxr : x ≠ r := ((hnp.mem_erase_iff).mp hx).1
      have hxnp : x ∈ s.nonpurgeableResources := ((hnp.mem_erase_iff).mp hx).2
      intro hc
      rcases List.mem_cons.mp hc with hc2 | hc2
      · exact hxr hc2
      · exact hdisj x hxnp hc2
    · intro x hx
      by_cases hxr : x = r
      · subst hxr
        rw [hga_self]
        have := hattr x (List.mem_append_left _ hr)
        rcases hsome : s.getAttrs x with _ | a
        · rw [hsome] at this; cases this
        · rfl
      · rw [hga_other x hxr]
        refine hattr x ?_
        rcases List.mem_append.mp hx with hx | hx
        · exact List.mem_append_left _ (List.erase_subset r _ hx)
        · rcases List.mem_cons.mp hx with hc | hc
          · exact absurd hc hxr
          · exact List.mem_append_right _ hc
    · intro pr hpr
      simp only [updateAttrs, List.mem_map] at hpr
      obtain ⟨pr0, hpr0, hpr0eq⟩ := hpr
      have := hmem pr0 hpr0
      by_cases hc : pr0.1 = r
      · rw [if_pos hc] at hpr0eq
        rw [← hpr0eq]
        exact this
      · rw [if_neg hc] at hpr0eq
        rw [← hpr0eq]
        exact this
    · show s.totalBytes = _
      rw [htot]
      have hperm : List.Perm (s.nonpurgeableResources ++ s.purgeableResources)
          (s.nonpurgeableResources.erase r ++ r :: s.purgeableResources) := by
        refine List.Perm.trans (hpermNP.append_right s.purgeableResources) ?_
        exact List.perm_middle.symm
      rw [sum_map_perm s.memOf hperm]
      refine (congrArg List.sum (List.map_congr_left ?_)).symm
      intro x _
      exact hmape x
    · show s.purgeableBytes + s.memOf r = _
      change s.purgeableBytes + s.memOf r = ((r :: s.purgeableResources).map _).sum
      rw [List.map_cons, List.sum_cons, hmape r,
        List.map_congr_left (fun x _ => hmape x)]
      omega

theorem purgeOne_inv {s : ResourceCacheM} {r : ℕ} (hinv : CoreInv s)
    (hr : r ∈ s.purgeableResources) : CoreInv (purgeOne s r) := by
  obtain ⟨hnp, hp, hdisj, hattr, hmem, htot, hpb⟩ := hinv
  have hrNP : r ∉ s.nonpurgeableResources := fun hc => hdisj r hc hr
  have hpermP : List.Perm s.purgeableResources (r :: s.purgeableResources.erase r) :=
    List.perm_cons_erase hr
  obtain ⟨e1, e2, _⟩ := purgeOne_structure s r
  have hT : (purgeOne s r).totalBytes = s.totalBytes - s.memOf r := by
    unfold purgeOne
    exact (removeResource_structure _ r).2.2.2.1
  have hPB : (purgeOne s r).purgeableBytes = s.purgeableBytes - s.memOf r := by
    unfold purgeOne
    exact (removeResource_structure _ r).2.2.2.2.1
  have hA : (purgeOne s r).attrs =
      s.attrs.filter (fun pr => pr.1 ≠ r) := by
    unfold purgeOne
    exact (removeResource_structure _ r).2.2.2.2.2
  have hga : ∀ x, x ≠ r → (purgeOne s r).getAttrs x = s.getAttrs x := by
    intro x hx
    exact getAttrs_purgeOne_other s r x hx
  have hne : ∀ x ∈ s.nonpurgeableResources ++ s.purgeableResources.erase r, x ≠ r := by
    intro x hx
    rcases List.mem_append.mp hx with hx | hx
    · intro hcontra; exact hrNP (hcontra ▸ hx)
    · exact ((hp.mem_erase_iff).mp hx).1
  have hmape : ∀ x ∈ s.nonpurgeableResources ++ s.purgeableResources.erase r,
      (purgeOne s r).memOf x = s.memOf x := by
    intro x hx
    exact memOf_eq_of_getAttrs_eq x (hga x (hne x hx))
  have hsplitP : (s.purgeableResources.map s.memOf).sum =
      s.memOf r + ((s.purgeableResources.erase r).map s.memOf).sum := by
    rw [sum_map_perm s.memOf hpermP]
    rfl
  refine ⟨?_, ?_, ?_, ?_, ?_, ?_, ?_⟩
  · rw [e1]; exact hnp
  · rw [e2]; exact hp.erase r
  · rw [e1, e2]
    intro x hx hc
    exact hdisj x hx (List.erase_subset r _ hc)
  · rw [e1, e2]
    intro x hx
    rw [hga x (hne x hx)]
    refine hattr x ?_
    rcases List.mem_append.mp hx with hx | hx
    · exact List.mem_append_left _ hx
    · exact List.mem_append_right _ (List.erase_subset r _ hx)
  · rw [hA]
    intro pr hpr
    exact hmem pr (List.mem_of_mem_filter hpr)
  · rw [hT, e1, e2, List.map_congr_left hmape]
    have hsplit : s.totalBytes = s.memOf r +
        ((s.nonpurgeableResources ++ s.purgeableResources.erase r).map s.memOf).sum := by
      rw [htot]
      have hperm : List.Perm (s.nonpurgeableResources ++ s.purgeableResources)
          (r :: (s.nonpurgeableResources ++ s.purgeableResources.erase r)) := by
        refine List.Perm.trans ((hpermP.append_left s.nonpurgeableResources)) ?_
        exact List.perm_middle
      rw [sum_map_perm s.memOf hperm]
      rfl
    omega
  · rw [hPB, e2, hpb, hsplitP]
    have : ∀ x ∈ s.purgeableResources.erase r, (purgeOne s r).memOf x = s.memOf x := by
      intro x hx
      exact hmape x (List.mem_append_right _ hx)
    rw [List.map_congr_left this]
    omega

theorem foldl_processOne_inv : ∀ (rs : List ℕ) (s : ResourceCacheM), CoreInv s →
    rs.Nodup → (∀ r ∈ rs, r ∈ s.nonpurgeableResources) →
    CoreInv (rs.foldl processOne s) := by
  intro rs
  induction rs with
  | nil => intro s hinv _ _; exact hinv
  | cons r rs ih =>
    intro s hinv hnd hsub
    rw [List.foldl_cons]
    have hr : r ∈ s.nonpurgeableResources := hsub r (List.mem_cons_self r rs)
    refine ih (processOne s r) (processOne_inv hinv hr) (List.nodup_cons.mp hnd).2 ?_
    intro x hx
    rw [processOne_np]
    have hxnp : x ∈ s.nonpurgeableResources := hsub x (List.mem_cons_of_mem r hx)
    refine (hinv.1.mem_erase_iff).mpr ⟨?_, hxnp⟩
    intro hcontra
    exact (List.nodup_cons.mp hnd).1 (hcontra ▸ hx)

theorem foldl_purgeOne_inv : ∀ (rs : List ℕ) (s : ResourceCacheM), CoreInv s →
    rs.Nodup → (∀ r ∈ rs, r ∈ s.purgeableResources) →
    CoreInv (rs.foldl purgeOne s) := by
  intro rs
  induction rs with
  | nil => intro s hinv _ _; exact hinv
  | cons r rs ih =>
    intro s hinv hnd hsub
    rw [List.foldl_cons]
    have hr : r ∈ s.purgeableResources := hsub r (List.mem_cons_self r rs)
    refine ih (purgeOne s r) (purgeOne_inv hinv hr) (List.nodup_cons.mp hnd).2 ?_
    intro x hx
    rw [(purgeOne_structure s r).2.1]
    have hxp : x ∈ s.purgeableResources := hsub x (List.mem_cons_of_mem r hx)
    refine ((hinv.2.1).mem_erase_iff).mpr ⟨?_, hxp⟩
    intro hcontra
    exact (List.nodup_cons.mp hnd).1 (hcontra ▸ hx)

theorem foldl_erase_filter : ∀ (rs : List ℕ) (l : List ℕ), l.Nodup →
    rs.foldl (fun acc r => acc.erase r) l = l.filter (fun x => !rs.contains x) := by
  intro rs
  induction rs with
  | nil =>
    intro l _
    simp
  | cons r rs ih =>
    intro l hl
    rw [List.foldl_cons, ih (l.erase r) (hl.erase r), hl.erase_eq_filter r,
      List.filter_filter]
    refine List.filter_congr ?_
    intro x _
    by_cases hx : x = r <;> by_cases hc : rs.contains x <;>
      simp [hx, hc, List.contains_cons]

theorem processUnreferenced_np (c : ResourceCacheM) (h : c.nonpurgeableResources.Nodup) :
    c.processUnreferencedResources.nonpurgeableResources =
      c.nonpurgeableResources.filter (fun r => !c.isPurgeable r) := by
  unfold processUnreferencedResources
  rw [foldl_processOne_np, foldl_erase_filter _ _ h]
  refine List.filter_congr ?_
  intro x hx
  by_cases hp : c.isPurgeable x
  · have hmem : x ∈ c.nonpurgeableResources.filter (fun r => c.isPurgeable r) :=
      List.mem_filter.mpr ⟨hx, hp⟩
    have hcont : (c.nonpurgeableResources.filter (fun r => c.isPurgeable r)).contains x = true :=
      List.elem_iff.mpr hmem
    rw [hp, hcont]
  · have hmem : x ∉ c.nonpurgeableResources.filter (fun r => c.isPurgeable r) :=
      fun hc => hp (List.mem_filter.mp hc).2
    have : (c.nonpurgeableResources.filter (fun r => c.isPurgeable r)).contains x = false := by
      rw [← Bool.not_eq_true]
      intro hc
      exact hmem (List.elem_iff.mp hc)
    rw [this]
    simp [Bool.eq_false_iff.mpr hp]

theorem processUnreferenced_inv {c : ResourceCacheM} (hinv : CoreInv c) :
    CoreInv c.processUnreferencedResources :=
  foldl_processOne_inv _ c hinv (hinv.1.filter _) (fun _ hr => (List.mem_filter.mp hr).1)

theorem processUnreferenced_getAttrs (c : ResourceCacheM) (rid : ℕ)
    (h : c.isPurgeable rid = false) :
    c.processUnreferencedResources.getAttrs rid = c.getAttrs rid := by
  unfold processUnreferencedResources
  refine foldl_processOne_getAttrs _ c rid ?_
  intro hc
  rw [(List.mem_filter.mp hc).2] at h
  cases h

/-- Full characterization of `purgeUntilMemoryTo 0 false` (the purge issued by
`setCacheLimit(0)`): after the lazy purgeable transition, the scan finds the
byte budget exceeded (or the purgeable list already empty) and evicts the
entire purgeable list from its least-recently-used end, leaving the
non-purgeable list untouched. -/
theorem purgeUntilMemoryTo_zero (c : ResourceCacheM) (hinv : CoreInv c) :
    (c.purgeUntilMemoryTo 0 false).purgeableResources = [] ∧
    (c.purgeUntilMemoryTo 0 false).nonpurgeableResources =
      c.processUnreferencedResources.nonpurgeableResources ∧
    CoreInv (c.purgeUntilMemoryTo 0 false) ∧
    (c.purgeUntilMemoryTo 0 false).released =
      c.processUnreferencedResources.purgeableResources ++
        c.processUnreferencedResources.released ∧
    (∀ rid, rid ∉ c.processUnreferencedResources.purgeableResources →
      (c.purgeUntilMemoryTo 0 false).getAttrs rid =
        c.processUnreferencedResources.getAttrs rid) := by
  have hinv1 := processUnreferenced_inv hinv
  simp only [purgeUntilMemoryTo, purgeResourcesByLRU]
  by_cases hzero : c.processUnreferencedResources.totalBytes = 0
  · -- the budget is already met: the purgeable list must be empty
    have hPempty : c.processUnreferencedResources.purgeableResources = [] := by
      rcases hP : c.processUnreferencedResources.purgeableResources with _ | ⟨p, rest⟩
      · rfl
      · exfalso
        have hpmem : p ∈ c.processUnreferencedResources.purgeableResources := by
          rw [hP]; exact List.mem_cons_self p rest
        have hsome := hinv1.2.2.2.1 p (List.mem_append_right _ hpmem)
        rcases hsomea : c.processUnreferencedResources.getAttrs p with _ | a
        · rw [hsomea] at hsome; cases hsome
        · have hpos := hinv1.2.2.2.2.1 (p, a) (lookup_mem hsomea)
          have hmempos : 0 < c.processUnreferencedResources.memOf p := by
            unfold memOf
            rw [hsomea]
            exact hpos
          have hle : c.processUnreferencedResources.memOf p ≤
              ((c.processUnreferencedResources.nonpurgeableResources ++
                c.processUnreferencedResources.purgeableResources).map
                c.processUnreferencedResources.memOf).sum := by
            refine List.single_le_sum (fun x _ => Nat.zero_le x) _ ?_
            exact List.mem_map_of_mem _ (List.mem_append_right _ hpmem)
          rw [← hinv1.2.2.2.2.2.1, hzero] at hle
          omega
    refine ⟨?_, ?_, ?_, ?_, ?_⟩
    · simp [hPempty]
    · simp [hPempty]
    · simpa [hPempty] using hinv1
    · simp [hPempty]
    · intro rid _
      simp [hPempty]
  · -- over budget: the whole purgeable list is collected and purged
    have hsat : (!decide (c.processUnreferencedResources.totalBytes ≤ 0)) = true := by
      simp
      omega
    have hscan : c.processUnreferencedResources.purgeableResources.reverse.takeWhile
        (fun rid => !decide (c.processUnreferencedResources.totalBytes ≤ 0)) =
        c.processUnreferencedResources.purgeableResources.reverse :=
      List.takeWhile_eq_self_iff.mpr (fun x _ => hsat)
    rw [hscan]
    have hfilter : c.processUnreferencedResources.purgeableResources.reverse.filter
        (fun rid => !false || !c.processUnreferencedResources.hasExternalReferences rid) =
        c.processUnreferencedResources.purgeableResources.reverse := by
      refine List.filter_congr ?_ |>.trans (List.filter_true _)
      intro x _
      simp
    rw [hfilter]
    obtain ⟨hs1, hs2, hs3⟩ := foldl_purgeOne_structure
      c.processUnreferencedResources.purgeableResources.reverse
      c.processUnreferencedResources
    have hPnil : (c.processUnreferencedResources.purgeableResources.reverse.foldl purgeOne
        c.processUnreferencedResources).purgeableResources = [] := by
      rw [hs2, foldl_erase_filter _ _ hinv1.2.1]
      refine (List.filter_congr ?_).trans (List.filter_false _)
      intro x hx
      have : c.processUnreferencedResources.purgeableResources.reverse.contains x = true :=
        List.elem_iff.mpr (List.mem_reverse.mpr hx)
      rw [this]
      rfl
    refine ⟨hPnil, hs1, ?_, ?_, ?_⟩
    · refine foldl_purgeOne_inv _ _ hinv1 (List.nodup_reverse.mpr hinv1.2.1) ?_
      intro r hr
      exact List.mem_reverse.mp hr
    · rw [hs3, List.reverse_reverse]
    · intro rid hrid
      refine foldl_purgeOne_getAttrs _ _ rid ?_
      intro hc
      exact hrid (List.mem_reverse.mp hc)

theorem processOne_P_subset (s : ResourceCacheM) (r x : ℕ) :
    x ∈ (processOne s r).purgeableResources → x = r ∨ x ∈ s.purgeableResources := by
  unfold processOne
  have hscr : ({ s with nonpurgeableResources := s.nonpurgeableResources.erase r } :
      ResourceCacheM).recycleKeyOf r = s.recycleKeyOf r := rfl
  rcases hk : s.recycleKeyOf r with _ | k
  · simp only [hscr, hk]
    intro hx
    rw [(removeResource_structure _ r).2.1] at hx
    exact Or.inr hx
  · simp only [hscr, hk]
    intro hx
    have hx2 : x ∈ r :: s.purgeableResources := hx
    exact List.mem_cons.mp hx2

theorem processOne_released_subset (s : ResourceCacheM) (r x : ℕ) :
    x ∈ (processOne s r).released → x = r ∨ x ∈ s.released := by
  unfold processOne
  have hscr : ({ s with nonpurgeableResources := s.nonpurgeableResources.erase r } :
      ResourceCacheM).recycleKeyOf r = s.recycleKeyOf r := rfl
  rcases hk : s.recycleKeyOf r with _ | k
  · simp only [hscr, hk]
    intro hx
    rw [(removeResource_structure _ r).2.2.1] at hx
    exact List.mem_cons.mp hx
  · simp only [hscr, hk]
    intro hx
    exact Or.inr hx

theorem foldl_processOne_P_subset : ∀ (rs : List ℕ) (s : ResourceCacheM) (x : ℕ),
    x ∈ (rs.foldl processOne s).purgeableResources → x ∈ rs ∨ x ∈ s.purgeableResources := by
  intro rs
  induction rs with
  | nil =>
    intro s x hx
    exact Or.inr hx
  | cons r rs ih =>
    intro s x hx
    rw [List.foldl_cons] at hx
    rcases ih (processOne s r) x hx with h | h
    · exact Or.inl (List.mem_cons_of_mem r h)
    · rcases processOne_P_subset s r x h with h2 | h2
      · exact Or.inl (by rw [h2]; exact List.mem_cons_self r rs)
      · exact Or.inr h2

theorem foldl_processOne_released_subset : ∀ (rs : List ℕ) (s : ResourceCacheM) (x : ℕ),
    x ∈ (rs.foldl processOne s).released → x ∈ rs ∨ x ∈ s.released := by
  intro rs
  induction rs with
  | nil =>
    intro s x hx
    exact Or.inr hx
  | cons r rs ih =>
    intro s x hx
    rw [List.foldl_cons] at hx
    rcases ih (processOne s r) x hx with h | h
    · exact Or.inl (List.mem_cons_of_mem r h)
    · rcases processOne_released_subset s r x h with h2 | h2
      · exact Or.inl (by rw [h2]; exact List.mem_cons_self r rs)
      · exact Or.inr h2

theorem mem_P_purgeable {c : ResourceCacheM} (hwf : WF c) {x : ℕ}
    (hx : x ∈ c.purgeableResources) : c.isPurgeable x = true := by
  have h0 := hwf.2.2.2.2.2.2.1 x hx
  have hs := hwf.2.2.2.2.2.1 x (List.mem_append_right _ hx)
  unfold isPurgeable
  rw [h0]
  simp [hs]

theorem proc_P_purgeable {c : ResourceCacheM} (hwf : WF c) {x : ℕ}
    (hx : x ∈ c.processUnreferencedResources.purgeableResources) :
    c.isPurgeable x = true := by
  have hx2 : x ∈ ((c.nonpurgeableResources.filter (fun r => c.isPurgeable r)).foldl
      processOne c).purgeableResources := hx
  rcases foldl_processOne_P_subset _ c x hx2 with h | h
  · exact (List.mem_filter.mp h).2
  · exact mem_P_purgeable hwf h

theorem proc_released_cases {c : ResourceCacheM} {x : ℕ}
    (hx : x ∈ c.processUnreferencedResources.released) :
    c.isPurgeable x = true ∨ x ∈ c.released := by
  have hx2 : x ∈ ((c.nonpurgeableResources.filter (fun r => c.isPurgeable r)).foldl
      processOne c).released := hx
  rcases foldl_processOne_released_subset _ c x hx2 with h | h
  · exact Or.inl (List.mem_filter.mp h).2
  · exact Or.inr h

theorem purge_no_evict_nonpurgeable {c : ResourceCacheM} (hwf : WF c)
    (bytesLimit : ℕ) (ro : Bool) (rid : ℕ) (hnp : c.isPurgeable rid = false)
    (hr : rid ∈ (c.purgeUntilMemoryTo bytesLimit ro).released) : rid ∈ c.released := by
  simp only [purgeUntilMemoryTo, purgeResourcesByLRU] at hr
  rcases List.mem_append.mp ((foldl_purgeOne_structure _ _).2.2 ▸ hr) with h | h
  · exfalso
    have h1 := List.mem_reverse.mp h
    have h2 := List.mem_of_mem_filter h1
    have h3 := (List.takeWhile_prefix _).sublist.subset h2
    have h4 := List.mem_reverse.mp h3
    have h5 := proc_P_purgeable hwf h4
    rw [hnp] at h5
    cases h5
  · rcases proc_released_cases h with h2 | h2
    · rw [hnp] at h2
      cases h2
    · exact h2

/-- C7 (amended): when the current budget differs from the new zero limit,
`setCacheLimit(0)` evicts every purgeable resource, walking the purgeable
list from its least-recently-used end; exactly the non-purgeable resources
survive on the non-purgeable list, `totalBytes` afterwards is the sum of the
survivors' byte sizes, and no `purgeUntilMemoryTo` or `setCacheLimit` call
ever evicts a non-purgeable resource, whatever the limit.  (When the budget
already equals the new limit, `setCacheLimit` returns without purging.) -/
theorem setCacheLimit_zero_purges_all {c : ResourceCacheM} (hwf : WF c)
    (hmax : c.maxBytes ≠ 0) :
    (c.setCacheLimit 0).purgeableResources = [] ∧
    (c.setCacheLimit 0).nonpurgeableResources =
      c.nonpurgeableResources.filter (fun r => !c.isPurgeable r) ∧
    (c.setCacheLimit 0).totalBytes =
      ((c.setCacheLimit 0).nonpurgeableResources.map (c.setCacheLimit 0).memOf).sum ∧
    (c.setCacheLimit 0).released =
      ({ c with maxBytes := 0 } : ResourceCacheM
        ).processUnreferencedResources.purgeableResources ++
      ({ c with maxBytes := 0 } : ResourceCacheM
        ).processUnreferencedResources.released ∧
    (∀ bytesLimit ro rid, c.isPurgeable rid = false →
      rid ∈ (c.purgeUntilMemoryTo bytesLimit ro).released → rid ∈ c.released) ∧
    (∀ bytesLimit rid, c.isPurgeable rid = false →
      rid ∈ (c.setCacheLimit bytesLimit).released → rid ∈ c.released) := by
  have hinv : CoreInv ({ c with maxBytes := 0 } : ResourceCacheM) := hwf.coreInv
  have hred : c.setCacheLimit 0 =
      purgeUntilMemoryTo { c with maxBytes := 0 } 0 false := by
    unfold setCacheLimit
    rw [if_neg hmax]
  obtain ⟨h1, h2, h3, h4, _⟩ := purgeUntilMemoryTo_zero { c with maxBytes := 0 } hinv
  refine ⟨hred ▸ h1, ?_, ?_, hred ▸ h4, ?_, ?_⟩
  · rw [hred]
    exact h2.trans (processUnreferenced_np _ hwf.1)
  · rw [hred]
    have h6 := h3.2.2.2.2.2.1
    rw [h1, List.append_nil] at h6
    exact h6
  · intro bytesLimit ro rid hnp hr
    exact purge_no_evict_nonpurgeable hwf bytesLimit ro rid hnp hr
  · intro bytesLimit rid hnp hr
    unfold setCacheLimit at hr
    by_cases hml : c.maxBytes = bytesLimit
    · rw [if_pos hml] at hr
      exact hr
    · rw [if_neg hml] at hr
      exact purge_no_evict_nonpurgeable (c := { c with maxBytes := bytesLimit }) hwf
        bytesLimit false rid hnp hr

theorem setCacheLimit_zero_purges_all_witness :
    (purgeDemo.setCacheLimit 0).purgeableResources = [] ∧
    (purgeDemo.setCacheLimit 0).nonpurgeableResources = [6] ∧
    (purgeDemo.setCacheLimit 0).totalBytes = 8 :=
  ⟨(setCacheLimit_zero_purges_all (by decide) (by decide)).1,
   ((setCacheLimit_zero_purges_all (by decide) (by decide)).2.1).trans (by decide),
   ((setCacheLimit_zero_purges_all (by decide) (by decide)).2.2.1).trans (by decide)⟩

/-- C7 counterexample: it is not true that `setCacheLimit(0)` evicts every
purgeable resource from **every** cache state — when the budget is already
zero, `setCacheLimit` returns immediately and the purgeable resource `5`
of `zeroLimitDemo` is never evicted. -/
theorem setCacheLimit_zero_counterexample :
    ¬ (∀ c : ResourceCacheM, WF c →
        ∀ rid, rid ∈ c.nonpurgeableResources ++ c.purgeableResources →
          c.isPurgeable rid = true → rid ∈ (c.setCacheLimit 0).released) := by
  intro h
  have h5 := h zeroLimitDemo (by decide) 5 (by decide) (by decide)
  exact absurd h5 (by decide)

theorem findRecyclable_first_in_insertion_order_witness :
    recycleDemo.isPurgeable 0 = true ∧
    recycleDemo.hasExternalReferences 0 = false ∧
    recycleDemo.recycleKeyOf 0 = some 7 ∧
    (∀ bucket, recycleDemo.recycleKeyMap.lookup 7 = some bucket →
      ∀ rid2 ∈ bucket,
        (recycleDemo.isPurgeable rid2 && !recycleDemo.hasExternalReferences rid2) = true →
        recycleDemo.addedAtOf 0 ≤ recycleDemo.addedAtOf rid2) ∧
    0 ∈ (recycleDemo.findRecyclableResource 7).2.nonpurgeableResources ∧
    0 ∉ (recycleDemo.findRecyclableResource 7).2.purgeableResources ∧
    (recycleDemo.findRecyclableResource 7).2.handleRefsOf 0 =
      recycleDemo.handleRefsOf 0 + 1 ∧
    ((recycleDemo.findRecyclableResource 7).2.findRecyclableResource 7).1 ≠ some 0 :=
  findRecyclable_first_in_insertion_order (by decide) (by decide)

/-- C6 counterexample: `findRecyclableResource` does **not** return the
most-recently-used matching candidate — in `recycleDemo` both resources `0`
and `1` match recycle key `7`, resource `1` was used later, yet the scan
returns resource `0`, the first of the bucket in insertion order. -/
theorem findRecyclable_mru_counterexample :
    ¬ (∀ c : ResourceCacheM, WF c → ∀ key rid,
        (c.findRecyclableResource key).1 = some rid →
        ∀ rid2, c.recycleKeyOf rid2 = some key →
          (c.isPurgeable rid2 && !c.hasExternalReferences rid2) = true →
          c.lastUsedOf rid2 ≤ c.lastUsedOf rid) := by
  intro h
  have h5 := h recycleDemo (by decide) 7 0 (by decide) 1 (by decide) (by decide)
  exact absurd h5 (by decide)

end ResourceCacheM

namespace ProgramCacheM

theorem getLast?_cons_of_ne_nil {α : Type} (a : α) : ∀ {l : List α}, l ≠ [] →
    (a :: l).getLast? = l.getLast? := by
  intro l h
  cases l with
  | nil => exact absurd rfl h
  | cons b t => exact List.getLast?_cons_cons

theorem dropLast_cons_of_ne_nil {α : Type} (a : α) : ∀ {l : List α}, l ≠ [] →
    (a :: l).dropLast = a :: l.dropLast := by
  intro l h
  cases l with
  | nil => exact absurd rfl h
  | cons b t => exact List.dropLast_cons₂

theorem length_filter_lt_of_mem {α : Type} {p : α → Bool} :
    ∀ {l : List α} {a : α}, a ∈ l → p a = false → (l.filter p).length < l.length := by
  intro l
  induction l with
  | nil =>
    intro a h _
    cases h
  | cons b t ih =>
    intro a hmem hpa
    rcases List.mem_cons.mp hmem with h | h
    · have hpb : p b = false := by rw [← h]; exact hpa
      simp only [List.filter_cons, hpb, Bool.false_eq_true, if_false, List.length_cons]
      exact Nat.lt_succ_of_le (List.length_filter_le _ _)
    · by_cases hb : p b = true
      · simp only [List.filter_cons, hb, if_true, List.length_cons]
        exact Nat.succ_lt_succ (ih h hpa)
      · have hpb : p b = false := by rwa [Bool.not_eq_true] at hb
        simp only [List.filter_cons, hpb, Bool.false_eq_true, if_false, List.length_cons]
        exact Nat.lt_succ_of_lt (ih h hpa)

theorem evictWhileOver_of_gt {c : ProgramCacheM}
    (h : MAX_PROGRAM_COUNT < c.programLRU.length) :
    evictWhileOver c = evictWhileOver (removeOldestProgram c) := by
  conv_lhs => rw [evictWhileOver]
  rw [dif_pos h]

theorem evictWhileOver_of_le {c : ProgramCacheM}
    (h : c.programLRU.length ≤ MAX_PROGRAM_COUNT) : evictWhileOver c = c := by
  rw [evictWhileOver, dif_neg (by omega)]

theorem removeOldest_length_lt {c : ProgramCacheM} (h : c.programLRU ≠ []) :
    (removeOldestProgram c).programLRU.length < c.programLRU.length := by
  unfold removeOldestProgram
  rcases hl : c.programLRU.getLast? with _ | pr
  · exact absurd (List.getLast?_eq_none_iff.mp hl) h
  · simp only [List.length_dropLast]
    have : 0 < c.programLRU.length := List.length_pos.mpr h
    omega

theorem evictWhileOver_length (c : ProgramCacheM) :
    (evictWhileOver c).programLRU.length ≤ MAX_PROGRAM_COUNT := by
  generalize hn : c.programLRU.length = n
  induction n using Nat.strong_induction_on generalizing c with
  | _ n ih =>
    by_cases h : MAX_PROGRAM_COUNT < c.programLRU.length
    · rw [evictWhileOver_of_gt h]
      have hne : c.programLRU ≠ [] := by
        intro h0
        rw [h0] at h
        cases h
      exact ih _ (hn ▸ removeOldest_length_lt hne) _ rfl
    · rw [evictWhileOver_of_le (by omega)]
      omega

/-- C8: after a completed `getProgram` call the program cache holds at most
`MAX_PROGRAM_COUNT = 128` entries (assuming it did before and every map
entry points at a program on the LRU list); a call that introduces a 129th
distinct pipeline configuration compiles it and evicts exactly the
least-recently-used program of the prior 128, releasing its GPU handle and
erasing its unique key; a call whose configuration is already cached returns
the cached program without compiling and moves it to the front
(most-recently-used) of the LRU list. -/
theorem programCache_capacity_lru (c : ProgramCacheM) (key : ℕ) (compileOk : Bool) :
    (c.programLRU.length ≤ MAX_PROGRAM_COUNT →
      (∀ k pid, c.programMap.lookup k = some pid → (pid, k) ∈ c.programLRU) →
      (c.getProgram key compileOk).2.programLRU.length ≤ MAX_PROGRAM_COUNT) ∧
    (∀ lp lk, c.programLRU.length = MAX_PROGRAM_COUNT →
      c.programMap.lookup key = none → compileOk = true →
      c.programLRU.getLast? = some (lp, lk) →
      (c.getProgram key compileOk).1 = some c.nextProgram ∧
      (c.getProgram key compileOk).2.programLRU =
        (c.nextProgram, key) :: c.programLRU.dropLast ∧
      (c.getProgram key compileOk).2.releasedGPU = lp :: c.releasedGPU ∧
      (c.getProgram key compileOk).2.programLRU.length = MAX_PROGRAM_COUNT ∧
      (c.getProgram key compileOk).2.compiled = c.compiled + 1 ∧
      (c.getProgram key compileOk).2.programMap =
        ((key, c.nextProgram) :: c.programMap).filter (fun en => en.1 ≠ lk)) ∧
    (∀ pid, c.programMap.lookup key = some pid →
      (c.getProgram key compileOk).1 = some pid ∧
      (c.getProgram key compileOk).2.compiled = c.compiled ∧
      (c.getProgram key compileOk).2.programLRU =
        (pid, key) :: c.programLRU.filter (fun pr => pr.1 ≠ pid) ∧
      (c.getProgram key compileOk).2.programMap = c.programMap) := by
  refine ⟨?_, ?_, ?_⟩
  · intro hlen hcons
    rcases hlk : c.programMap.lookup key with _ | pid
    · by_cases hok : compileOk = true
      · have hstep : (c.getProgram key compileOk).2 =
            evictWhileOver
              { c with
                programLRU := (c.nextProgram, key) :: c.programLRU
                programMap := (key, c.nextProgram) :: c.programMap
                nextProgram := c.nextProgram + 1
                compiled := c.compiled + 1 } := by
          simp [getProgram, hlk, hok]
        rw [hstep]
        exact evictWhileOver_length _
      · have hok2 : compileOk = false := by rwa [Bool.not_eq_true] at hok
        have hstep : (c.getProgram key compileOk).2 = c := by
          simp [getProgram, hlk, hok2]
        rw [hstep]
        exact hlen
    · have hmem := hcons key pid hlk
      have hflt : (c.programLRU.filter (fun pr => pr.1 ≠ pid)).length <
          c.programLRU.length :=
        length_filter_lt_of_mem hmem (by simp)
      have hstep : (c.getProgram key compileOk).2.programLRU =
          (pid, key) :: c.programLRU.filter (fun pr => pr.1 ≠ pid) := by
        simp [getProgram, hlk]
      rw [hstep, List.length_cons]
      omega
  · intro lp lk h128 hmiss hok hlast
    subst hok
    have hne : c.programLRU ≠ [] := by
      intro h0
      rw [h0] at h128
      cases h128
    have hstep : c.getProgram key true =
        (some c.nextProgram,
          evictWhileOver
            { c with
              programLRU := (c.nextProgram, key) :: c.programLRU
              programMap := (key, c.nextProgram) :: c.programMap
              nextProgram := c.nextProgram + 1
              compiled := c.compiled + 1 }) := by
      simp [getProgram, hmiss]
    have hlast1 : (({ c with
        programLRU := (c.nextProgram, key) :: c.programLRU
        programMap := (key, c.nextProgram) :: c.programMap
        nextProgram := c.nextProgram + 1
        compiled := c.compiled + 1 } : ProgramCacheM)).programLRU.getLast? =
        some (lp, lk) := by
      show ((c.nextProgram, key) :: c.programLRU).getLast? = some (lp, lk)
      rw [getLast?_cons_of_ne_nil _ hne]
      exact hlast
    have hrm : removeOldestProgram { c with
        programLRU := (c.nextProgram, key) :: c.programLRU
        programMap := (key, c.nextProgram) :: c.programMap
        nextProgram := c.nextProgram + 1
        compiled := c.compiled + 1 } =
        { c with
          programLRU := (c.nextProgram, key) :: c.programLRU.dropLast
          programMap := ((key, c.nextProgram) :: c.programMap).filter
            (fun en => en.1 ≠ lk)
          nextProgram := c.nextProgram + 1
          compiled := c.compiled + 1
          releasedGPU := lp :: c.releasedGPU } := by
      unfold removeOldestProgram
      simp only [hlast1]
      rw [dropLast_cons_of_ne_nil _ hne]
    have hlen1 : MAX_PROGRAM_COUNT <
        (({ c with
          programLRU := (c.nextProgram, key) :: c.programLRU
          programMap := (key, c.nextProgram) :: c.programMap
          nextProgram := c.nextProgram + 1
          compiled := c.compiled + 1 } : ProgramCacheM)).programLRU.length := by
      show MAX_PROGRAM_COUNT < ((c.nextProgram, key) :: c.programLRU).length
      rw [List.length_cons, h128]
      omega
    have hlen2 : ((c.nextProgram, key) :: c.programLRU.dropLast).length =
        MAX_PROGRAM_COUNT := by
      rw [List.length_cons, List.length_dropLast, h128]
      decide
    have hev : (c.getProgram key true).2 =
        { c with
          programLRU := (c.nextProgram, key) :: c.programLRU.dropLast
          programMap := ((key, c.nextProgram) :: c.programMap).filter
            (fun en => en.1 ≠ lk)
          nextProgram := c.nextProgram + 1
          compiled := c.compiled + 1
          releasedGPU := lp :: c.releasedGPU } := by
      rw [hstep]
      show evictWhileOver _ = _
      rw [evictWhileOver_of_gt hlen1, hrm]
      refine evictWhileOver_of_le ?_
      show ((c.nextProgram, key) :: c.programLRU.dropLast).length ≤ MAX_PROGRAM_COUNT
      rw [hlen2]
    refine ⟨?_, ?_, ?_, ?_, ?_, ?_⟩
    · rw [hstep]
    · rw [hev]
    · rw [hev]
    · rw [hev]
      exact hlen2
    · rw [hev]
    · rw [hev]
  · intro pid hhit
    have hstep : c.getProgram key compileOk =
        (some pid,
          { c with programLRU :=
              (pid, key) :: c.programLRU.filter (fun pr => pr.1 ≠ pid) }) := by
      simp [getProgram, hhit]
    rw [hstep]
    exact ⟨rfl, rfl, rfl, rfl⟩

set_option maxRecDepth 4096 in
theorem programCache_capacity_lru_witness :
    (pcDemo.getProgram 1 true).2.programLRU.length ≤ MAX_PROGRAM_COUNT ∧
    (pcDemo.getProgram 1 true).1 = some pcDemo.nextProgram ∧
    (pcDemo.getProgram 1 true).2.releasedGPU = 130 :: pcDemo.releasedGPU ∧
    (pcDemo.getProgram 7 true).1 = some 3 ∧
    (pcDemo.getProgram 7 true).2.compiled = pcDemo.compiled := by
  refine ⟨?_, ?_, ?_, ?_, ?_⟩
  · refine (programCache_capacity_lru pcDemo 1 true).1 (by decide) ?_
    intro k pid h
    simp only [pcDemo] at h
    rw [ResourceCacheM.lookup_cons_ite] at h
    by_cases hk : k = 7
    · rw [if_pos hk] at h
      injection h with h
      rw [hk, ← h]
      decide
    · rw [if_neg hk] at h
      exact absurd h (by simp)
  · exact ((programCache_capacity_lru pcDemo 1 true).2.1 130 134 (by decide) (by decide)
      rfl (by decide)).1
  · exact ((programCache_capacity_lru pcDemo 1 true).2.1 130 134 (by decide) (by decide)
      rfl (by decide)).2.2.1
  · exact ((programCache_capacity_lru pcDemo 7 true).2.2 3 (by decide)).1
  · exact ((programCache_capacity_lru pcDemo 7 true).2.2 3 (by decide)).2.1

end ProgramCacheM

end Tgfx
